import Mathlib

/-!
Verification development for the hyperspot modular runtime (`modkit`).

Shallow embedding of the parts of the source that the checked properties
speak about:

* `src/libs/modkit/src/registry.rs` — `RegistryBuilder`, cycle detection by
  three-color DFS, Kahn topological sort, `build_topo_sorted`.
* `src/libs/modkit/src/runtime/host_runtime.rs` — start/stop phase orders.
* `src/libs/modkit/src/runtime/module_manager.rs` — instance states,
  `evict_stale`, `pick_instance_round_robin`.
* `src/libs/modkit/src/runtime/grpc_installers.rs` — `GrpcInstallerStore`.
* `src/modules/grpc_hub/src/lib.rs` — `run_with_installers` event order.
* `src/modules/api_ingress/src/lib.rs` — `register_operation` duplicate policy.
* `src/libs/modkit/src/api/operation_builder.rs` — default `handler_id`
  derivation and `OperationBuilder::register`.

Machine integers (`usize`) are modelled as `Nat`; the subtractions the code
performs are proven not to underflow where that matters.  Rust `HashMap`
iteration order is unspecified; wherever the source iterates a `HashMap`
(`RegistryBuilder::core.keys()`, `RegistryBuilder::deps.iter()`), the model
takes the iteration order as an explicit list parameter constrained to be a
permutation of the inserted keys.  `Instant`s are modelled as `Nat`
timestamps; `saturating_duration_since` is `Nat` truncated subtraction.
-/

namespace Hyperspot

/-! ## Service directory (`module_manager.rs`) -/

/-- `InstanceState` from `module_manager.rs`. -/
inductive InstanceState where
  | Registered
  | Ready
  | Healthy
  | Quarantined
  | Draining
deriving DecidableEq, Repr

/-- One `ModuleInstance`, restricted to the runtime-state fields `evict_stale`
and selection read: `instance_id`, `last_heartbeat` (a `Nat` timestamp) and
`state`. -/
structure InstanceM where
  instanceId : String
  lastHeartbeat : Nat
  state : InstanceState
deriving DecidableEq, Repr

/-- The body of the `retain` closure in `ModuleManager::evict_stale`:
`some` keeps the instance (possibly quarantining it), `none` evicts it.
`age` is `now.saturating_duration_since(last_heartbeat)`. -/
def evictStep (ttl grace now : Nat) (inst : InstanceM) : Option InstanceM :=
  let age := now - inst.lastHeartbeat
  if ttl ≤ age ∧ inst.state ≠ .Quarantined ∧ inst.state ≠ .Draining then
    some { inst with state := .Quarantined }
  else if inst.state = .Quarantined ∧ ttl + grace ≤ age then
    none
  else
    some inst

/-- `ModuleManager::evict_stale` restricted to one module bucket: the `retain`
pass over that bucket's instance vector. -/
def evictStale (ttl grace now : Nat) (insts : List InstanceM) : List InstanceM :=
  insts.filterMap (evictStep ttl grace now)

/-- `matches!(state, InstanceState::Healthy | InstanceState::Ready)` — the
selection predicate of `pick_instance_round_robin`. -/
def selectable (s : InstanceState) : Prop := s = .Healthy ∨ s = .Ready

instance (s : InstanceState) : Decidable (selectable s) := by
  unfold selectable; infer_instance

/-- `ModuleManager::pick_instance_round_robin` for one module bucket:
`insts` is the bucket's vector, `counter` the module's `rr_counters` entry
(`or_insert(0)` is modelled by the caller starting at `0`).  Returns the
picked instance and the updated counter. -/
def pickInstanceRR (insts : List InstanceM) (counter : Nat) :
    Option InstanceM × Nat :=
  match insts with
  | [] => (none, counter)
  | _ :: _ =>
    let healthy := insts.filter (fun i => decide (selectable i.state))
    let candidates := if healthy = [] then insts else healthy
    ((candidates.get? (counter % candidates.length)),
      (counter + 1) % candidates.length)

/-- `k` successive calls of `pick_instance_round_robin` on a bucket whose
contents do not change between calls; collects the picks in order. -/
def runPicks : Nat → List InstanceM → Nat → List (Option InstanceM) × Nat
  | 0, _, c => ([], c)
  | k + 1, insts, c =>
    ((pickInstanceRR insts c).1 ::
        (runPicks k insts (pickInstanceRR insts c).2).1,
      (runPicks k insts (pickInstanceRR insts c).2).2)

/-! ## gRPC installer store (`grpc_installers.rs`) and hub serve -/

/-- The store contents: the vector of installers, by service name (the
`RegisterGrpcServiceFn` closure payload is irrelevant to the hand-off
discipline). -/
abbrev InstallerStore := List String

/-- `GrpcInstallerStore::set`: fails iff the guarded vector is non-empty. -/
def storeSet (installers : List String) (store : InstallerStore) :
    Except String InstallerStore :=
  if store ≠ [] then .error "gRPC installers already initialized"
  else .ok installers

/-- `GrpcInstallerStore::take`: `std::mem::take` — returns the contents and
leaves the empty vector behind.  It has no failure path. -/
def storeTake (store : InstallerStore) : List String × InstallerStore :=
  (store, [])

/-- `GrpcHub::serve`'s interaction with the store: error iff the store was
never wired in `wire_system`; otherwise `take()` and hand the installers on.
Returns the taken installers and the store as `serve` leaves it. -/
def hubServe (wired : Option InstallerStore) :
    Except String (List String × Option InstallerStore) :=
  match wired with
  | none => .error "GrpcInstallerStore not wired into GrpcHub"
  | some st =>
    let (ins, st1) := storeTake st
    .ok (ins, some st1)

/-! ## gRPC hub serve trace (`grpc_hub/src/lib.rs`, `run_with_installers`) -/

/-- Observable events of `GrpcHub::run_with_installers`, in program order. -/
inductive HubEvent where
  | routesBuilt
  | readyNotified
  | bound
  | served
  | waitedCancel
deriving DecidableEq, Repr

/-- `GrpcHub::run_with_installers`: duplicate service names are a hard error;
with no installers it notifies ready and waits for cancellation; otherwise it
builds the routes, notifies ready, and only then calls
`serve_with_shutdown`, which binds the listener internally and serves. -/
def runWithInstallers (installers : List String) :
    Except String (List HubEvent) :=
  if ¬ installers.Nodup then
    .error "Duplicate gRPC service detected"
  else if installers = [] then
    .ok [.readyNotified, .waitedCancel]
  else
    .ok [.routesBuilt, .readyNotified, .bound, .served]

/-! ## Operation registration (`api_ingress/src/lib.rs`,
`operation_builder.rs`) -/

/-- `OperationSpec` restricted to the fields the duplicate policy reads:
`method` (lower-cased HTTP method name), `path`, `handler_id`. -/
structure OperationSpec where
  method : String
  path : String
  handlerId : String
deriving DecidableEq, Repr

/-- Insert into a map modelled as an association list keyed by the first
component: replace an existing binding, else append (a `DashMap::insert`). -/
def insertKeyed (k : String) (v : OperationSpec) :
    List (String × OperationSpec) → List (String × OperationSpec)
  | [] => [(k, v)]
  | (k0, v0) :: rest =>
    if k0 = k then (k, v) :: rest else (k0, v0) :: insertKeyed k v rest

/-- The `ApiIngress` registration state: `registered_handlers`,
`registered_routes`, `operation_specs` (keyed by `"method:path"`), plus the
log of `tracing::error!` duplicate reports. -/
structure IngressState where
  registeredHandlers : List String
  registeredRoutes : List (String × String)
  operationSpecs : List (String × OperationSpec)
  errorLog : List String
deriving DecidableEq, Repr

/-- The empty `ApiIngress` registration state. -/
def IngressState.empty : IngressState := ⟨[], [], [], []⟩

/-- `ApiIngress::register_operation` (the `OpenApiRegistry` impl): first
insert the `handler_id` (the `DashMap::insert` happens before the duplicate
test); a previous binding means log-and-drop.  Then the same for
`(method, path)`.  Only a fully fresh operation reaches `operation_specs`. -/
def registerOperation (st : IngressState) (spec : OperationSpec) :
    IngressState :=
  if spec.handlerId ∈ st.registeredHandlers then
    { st with errorLog := st.errorLog ++
        ["Duplicate handler_id detected; ignoring subsequent registration"] }
  else
    let st1 := { st with
      registeredHandlers := st.registeredHandlers ++ [spec.handlerId] }
    if (spec.method, spec.path) ∈ st1.registeredRoutes then
      { st1 with errorLog := st1.errorLog ++
          ["Duplicate (method, path) detected; ignoring subsequent registration"] }
    else
      { st1 with
        registeredRoutes := st1.registeredRoutes ++ [(spec.method, spec.path)],
        operationSpecs :=
          insertKeyed (spec.method ++ ":" ++ spec.path) spec st1.operationSpecs }

/-- `OperationBuilder::register`: informs the OpenAPI registry and then —
unconditionally — adds the route to the axum router (modelled as the list of
`(method, path)` entries handed to `Router::route`). -/
def obRegister (router : List (String × String)) (st : IngressState)
    (spec : OperationSpec) : List (String × String) × IngressState :=
  (router ++ [(spec.method, spec.path)], registerOperation st spec)

/-- `path.replace(['/', '{', '}'], "_")` from `OperationBuilder::new`. -/
def sanitizePath (path : String) : String :=
  String.mk (path.data.map fun c =>
    if c = '/' ∨ c = '{' ∨ c = '}' then '_' else c)

/-- ASCII lower-casing of the method name (`method.as_str().to_lowercase()`;
HTTP method names are ASCII). -/
def lowerAscii (s : String) : String :=
  String.mk (s.data.map Char.toLower)

/-- The default `handler_id` derived by `OperationBuilder::new`. -/
def derivedHandlerId (method path : String) : String :=
  lowerAscii method ++ ":" ++ sanitizePath path

/-- `OperationBuilder::new`, restricted to the spec fields the duplicate
policy reads. -/
def obNew (method path : String) : OperationSpec :=
  ⟨lowerAscii method, path, derivedHandlerId method path⟩

/-! ## Host runtime phase orders (`host_runtime.rs`, `registry.rs`) -/

/-- A `ModuleEntry` as `build_topo_sorted` emits it, with capability handles
replaced by presence flags. -/
structure ModuleEntryM where
  name : String
  deps : List String
  hasRest : Bool
  isRestHost : Bool
  hasDb : Bool
  hasStateful : Bool
  isSystem : Bool
  isGrpcHub : Bool
  hasGrpcService : Bool
deriving DecidableEq, Repr

/-- `ModuleRegistry::modules_by_system_priority`: system modules first, then
the others, each group keeping registry (topo) order. -/
def modulesBySystemPriority (ms : List ModuleEntryM) : List ModuleEntryM :=
  ms.filter (fun e => e.isSystem) ++ ms.filter (fun e => !e.isSystem)

/-- The module names on which `HostRuntime::run_start_phase` invokes `start`,
in invocation order (all starts succeeding). -/
def startInvocations (ms : List ModuleEntryM) : List String :=
  ((modulesBySystemPriority ms).filter (fun e => e.hasStateful)).map
    (fun e => e.name)

/-- `HostRuntime::run_stop_phase`: iterate `registry.modules()` in reverse,
invoke `stop` on every stateful entry, record success/failure per `err`.
A failing `stop` is logged (`tracing::warn!`) and the loop continues: the
loop body has no early exit, which the fold mirrors. -/
def runStopPhase (err : String → Bool) (ms : List ModuleEntryM) :
    List (String × Bool) :=
  ms.reverse.foldl
    (fun acc e => if e.hasStateful then acc ++ [(e.name, !err e.name)] else acc)
    []

/-- The module names on which the stop phase invokes `stop`, in order. -/
def stopInvocations (err : String → Bool) (ms : List ModuleEntryM) :
    List String :=
  (runStopPhase err ms).map Prod.fst

/-! ## Registry builder and `build_topo_sorted` (`registry.rs`)

Index-level graph representation, exactly as the source: `names` is the
`Vec` collected from `self.core.keys()` (a `HashMap`, so its order is an
arbitrary permutation of the registered names and is passed explicitly);
`adj : List (List Nat)` is the `Vec<Vec<usize>>` adjacency with the edge
`dep → module` pushed as `adj[idx dep].push(idx module)`. -/

/-- Membership edge of the index graph. -/
def EdgeTo (adj : List (List Nat)) (u w : Nat) : Prop := w ∈ adj.getD u []

instance (adj : List (List Nat)) (u w : Nat) : Decidable (EdgeTo adj u w) := by
  unfold EdgeTo; infer_instance

/-- Colors of `detect_cycle_with_path` are represented by the two stacks the
code keeps in lockstep with them: a node is Gray iff it is on `path` (pushed
exactly when painted Gray, popped exactly when painted Black) and Black iff
it is in `fin` (the finish order, appended exactly when painted Black). -/
structure DfsState where
  path : List Nat
  fin : List Nat
deriving DecidableEq, Repr

/-- White = unvisited: neither on the path nor finished. -/
def DfsState.White (st : DfsState) (u : Nat) : Prop :=
  u ∉ st.path ∧ u ∉ st.fin

instance (st : DfsState) (u : Nat) : Decidable (st.White u) := by
  unfold DfsState.White; infer_instance

/-- Number of unvisited nodes below `n`; the DFS recursion fuel bound. -/
def whiteCount (n : Nat) (st : DfsState) : Nat :=
  ((Finset.range n).filter fun u => st.White u).card

/-- The `for &neighbor in &adj[node]` loop of the recursive `dfs`, with
the one-level-deeper visit `go` abstracted out: Gray neighbor — back edge,
emit the cycle `path[position(neighbor)..] ++ [neighbor]`; Black — skip;
White — recurse through `go`. -/
def dfsLoopF (adj : List (List Nat))
    (go : Nat → DfsState → Except (List Nat) DfsState) :
    List Nat → DfsState → Except (List Nat) DfsState
  | [], st => .ok st
  | v :: vs, st =>
    if v ∈ st.path then
      .error (st.path.drop (st.path.indexOf v) ++ [v])
    else if v ∈ st.fin then
      dfsLoopF adj go vs st
    else
      match go v st with
      | .error c => .error c
      | .ok st2 => dfsLoopF adj go vs st2

/-- The recursive `dfs` of `detect_cycle_with_path`: paint `u` Gray (push),
walk the adjacency row, then paint Black (pop and finish).  `fuel` models
the call stack; `dfsGo` is only ever run with more fuel than there are
White nodes, so the `0` branch is unreachable (proved below). -/
def dfsGo (adj : List (List Nat)) : Nat → Nat → DfsState →
    Except (List Nat) DfsState
  | 0, _, st => .ok st
  | fuel + 1, u, st =>
    match dfsLoopF adj (dfsGo adj fuel) (adj.getD u [])
        ⟨st.path ++ [u], st.fin⟩ with
    | .error c => .error c
    | .ok st2 => .ok ⟨st2.path.dropLast, st2.fin ++ [u]⟩

/-- The root loop of `detect_cycle_with_path`: try every still-White node in
index order. -/
def detectAux (adj : List (List Nat)) (n : Nat) :
    List Nat → DfsState → Option (List Nat)
  | [], _ => none
  | i :: is, st =>
    if i ∈ st.path ∨ i ∈ st.fin then detectAux adj n is st
    else
      match dfsGo adj (n + 1) i st with
      | .error c => some c
      | .ok st2 => detectAux adj n is st2

/-- `RegistryBuilder::detect_cycle_with_path` at index level. -/
def detectCycleWithPath (n : Nat) (adj : List (List Nat)) :
    Option (List Nat) :=
  detectAux adj n (List.range n) ⟨[], []⟩

/-- Indegree computation of step 4 of `build_topo_sorted`:
`for adj_list in &adj { for &target { indeg[target] += 1 } }`. -/
def computeIndeg (n : Nat) (adj : List (List Nat)) : List Nat :=
  adj.foldl
    (fun acc l => l.foldl (fun acc2 w => acc2.set w (acc2.getD w 0 + 1)) acc)
    (List.replicate n 0)

/-- One relaxation `indeg[w] -= 1; if 0 { q.push_back(w) }` of Kahn's loop.
The source never underflows here (proved below from the loop invariant), so
`Nat` truncated subtraction agrees with `usize` subtraction. -/
def kahnRelax (st : List Nat × List Nat) (w : Nat) : List Nat × List Nat :=
  let d := st.1.getD w 0 - 1
  (st.1.set w d, if d = 0 then st.2 ++ [w] else st.2)

/-- The `while let Some(u) = q.pop_front()` loop of Kahn's algorithm.  The
source loop is unbounded; `fuel = n + 1` is proved sufficient below. -/
def kahnLoop : Nat → List Nat → List Nat → List (List Nat) → List Nat →
    List Nat
  | 0, _, _, _, order => order
  | fuel + 1, indeg, q, adj, order =>
    match q with
    | [] => order
    | u :: rest =>
      let s := (adj.getD u []).foldl kahnRelax (indeg, rest)
      kahnLoop fuel s.1 s.2 adj (order ++ [u])

/-- The whole Kahn phase of `build_topo_sorted` on the index graph. -/
def kahnOrder (n : Nat) (adj : List (List Nat)) : List Nat :=
  let indeg := computeIndeg n adj
  let q0 := (List.range n).filter fun i => indeg.getD i 0 = 0
  kahnLoop (n + 1) indeg q0 adj []

/-- `RegistryError`, restricted to the variants `build_topo_sorted` can
return. -/
inductive RegistryError where
  | UnknownModule (m : String)
  | UnknownDependency (module dep : String)
  | CycleDetected (path : List String)
  | InvalidRegistryConfiguration (errors : List String)
  | MissingDeps (m : String)
  | CoreNotFound (m : String)
deriving DecidableEq, Repr

/-- `RegistryBuilder`, with module objects dropped (only names, dependency
lists and capability membership affect `build_topo_sorted`).  `core` and
`deps` record the accepted `register_core_with_meta` calls in insertion
order; the `HashMap` iteration orders are supplied separately at build
time. -/
structure RegistryBuilderM where
  core : List String
  deps : List (String × List String)
  rest : List String
  restHost : Option String
  db : List String
  stateful : List String
  systemModules : List String
  grpcHub : Option String
  grpcServices : List String
  errors : List String
deriving DecidableEq, Repr

/-- The default (empty) builder. -/
def RegistryBuilderM.empty : RegistryBuilderM :=
  ⟨[], [], [], none, [], [], [], none, [], []⟩

/-- `register_core_with_meta`: duplicate names push an error and are
dropped; otherwise `core` and `deps` gain the module. -/
def registerCore (b : RegistryBuilderM) (name : String)
    (deps : List String) : RegistryBuilderM :=
  if name ∈ b.core then
    { b with errors := b.errors ++
        ["Module " ++ name ++ " is already registered"] }
  else
    { b with core := b.core ++ [name], deps := b.deps ++ [(name, deps)] }

/-- `register_rest_with_meta` (a `HashMap::insert`, idempotent by name). -/
def registerRest (b : RegistryBuilderM) (name : String) : RegistryBuilderM :=
  if name ∈ b.rest then b else { b with rest := b.rest ++ [name] }

/-- `register_rest_host_with_meta`: a second host pushes an error. -/
def registerRestHost (b : RegistryBuilderM) (name : String) :
    RegistryBuilderM :=
  match b.restHost with
  | some existing =>
    { b with errors := b.errors ++
        ["Multiple REST host modules detected: " ++ existing ++ " and " ++
          name ++ ". Only one REST host is allowed."] }
  | none => { b with restHost := some name }

/-- `register_db_with_meta`. -/
def registerDb (b : RegistryBuilderM) (name : String) : RegistryBuilderM :=
  if name ∈ b.db then b else { b with db := b.db ++ [name] }

/-- `register_stateful_with_meta`. -/
def registerStateful (b : RegistryBuilderM) (name : String) :
    RegistryBuilderM :=
  if name ∈ b.stateful then b else { b with stateful := b.stateful ++ [name] }

/-- `register_system_with_meta` (a `HashSet::insert`). -/
def registerSystem (b : RegistryBuilderM) (name : String) :
    RegistryBuilderM :=
  if name ∈ b.systemModules then b
  else { b with systemModules := b.systemModules ++ [name] }

/-- `register_grpc_hub_with_meta`: a second hub pushes an error. -/
def registerGrpcHub (b : RegistryBuilderM) (name : String) :
    RegistryBuilderM :=
  match b.grpcHub with
  | some existing =>
    { b with errors := b.errors ++
        ["Multiple gRPC hub modules detected: " ++ existing ++ " and " ++
          name ++ ". Only one gRPC hub is allowed."] }
  | none => { b with grpcHub := some name }

/-- `register_grpc_service_with_meta`. -/
def registerGrpcService (b : RegistryBuilderM) (name : String) :
    RegistryBuilderM :=
  if name ∈ b.grpcServices then b
  else { b with grpcServices := b.grpcServices ++ [name] }

/-- First element of `xs` missing from `core` (the capability-to-core
checks iterate a `HashMap`; for the claims below only whether an unknown
name exists matters, not which one is reported first). -/
def unknownOf (core : List String) (xs : List String) : Option String :=
  xs.find? fun n => decide (n ∉ core)

/-- Check an optional capability holder against `core`. -/
def optUnknown (core : List String) (x : Option String) : Option String :=
  match x with
  | some h => if h ∈ core then none else some h
  | none => none

/-- Steps 0–1 of `build_topo_sorted`: the initial `rest_host` check, the
accumulated-errors check, then every capability map checked against
`core`. -/
def validateCaps (b : RegistryBuilderM) : Option RegistryError :=
  match optUnknown b.core b.restHost with
  | some h => some (.UnknownModule h)
  | none =>
    match b.errors with
    | e :: es => some (.InvalidRegistryConfiguration (e :: es))
    | [] =>
      match unknownOf b.core b.rest with
      | some m => some (.UnknownModule m)
      | none =>
        match unknownOf b.core b.db with
        | some m => some (.UnknownModule m)
        | none =>
          match unknownOf b.core b.stateful with
          | some m => some (.UnknownModule m)
          | none =>
            match optUnknown b.core b.grpcHub with
            | some m => some (.UnknownModule m)
            | none =>
              match unknownOf b.core b.grpcServices with
              | some m => some (.UnknownModule m)
              | none => none

/-- Add the edges of one `deps` entry: `u = idx[module]`, and for each dep
`d`, `adj[idx[d]].push(u)`; an unknown dep is `UnknownDependency`. -/
def addDeps (names : List String) (u : Nat) (nm : String) :
    List String → List (List Nat) → Except RegistryError (List (List Nat))
  | [], adj => .ok adj
  | d :: ds, adj =>
    if d ∈ names then
      addDeps names u nm ds
        (adj.set (names.indexOf d) ((adj.getD (names.indexOf d) []) ++ [u]))
    else .error (.UnknownDependency nm d)

/-- Step 2 of `build_topo_sorted`: fold the `deps` map (in its `HashMap`
iteration order `depsIter`) into the adjacency. -/
def buildAdj (names : List String) :
    List (String × List String) → List (List Nat) →
    Except RegistryError (List (List Nat))
  | [], adj => .ok adj
  | (nm, ds) :: rest, adj =>
    if nm ∈ names then
      match addDeps names (names.indexOf nm) nm ds adj with
      | .ok adj2 => buildAdj names rest adj2
      | .error e => .error e
    else .error (.UnknownModule nm)

/-- The finished registry (module objects dropped). -/
structure ModuleRegistryM where
  modules : List ModuleEntryM
  grpcHub : Option String
  grpcServices : List String
deriving DecidableEq, Repr

/-- Build one `ModuleEntry` for a name in the final order. -/
def mkEntry (b : RegistryBuilderM) (name : String) :
    Except RegistryError ModuleEntryM :=
  match b.deps.find? (fun p => p.1 = name) with
  | none => .error (.MissingDeps name)
  | some p =>
    if name ∈ b.core then
      .ok
        { name := name
          deps := p.2
          hasRest := decide (name ∈ b.rest)
          isRestHost := b.restHost = some name
          hasDb := decide (name ∈ b.db)
          hasStateful := decide (name ∈ b.stateful)
          isSystem := decide (name ∈ b.systemModules)
          isGrpcHub := b.grpcHub = some name
          hasGrpcService := decide (name ∈ b.grpcServices) }
    else .error (.CoreNotFound name)

/-- Build the entries for the topo order (indices into `names`). -/
def mkEntries (b : RegistryBuilderM) (names : List String) :
    List Nat → Except RegistryError (List ModuleEntryM)
  | [] => .ok []
  | i :: is =>
    match mkEntry b (names.getD i "") with
    | .error e => .error e
    | .ok e =>
      match mkEntries b names is with
      | .error e2 => .error e2
      | .ok es => .ok (e :: es)

/-- `RegistryBuilder::build_topo_sorted`.  `names` is the order
`self.core.keys()` enumerates (an arbitrary permutation of the registered
names — `HashMap` iteration order), `depsIter` likewise for
`self.deps.iter()`. -/
def buildTopoSorted (b : RegistryBuilderM) (names : List String)
    (depsIter : List (String × List String)) :
    Except RegistryError ModuleRegistryM :=
  match validateCaps b with
  | some e => .error e
  | none =>
    match buildAdj names depsIter (List.replicate names.length []) with
    | .error e => .error e
    | .ok adj =>
      match detectCycleWithPath names.length adj with
      | some c =>
        .error (.CycleDetected (c.map fun i => names.getD i ""))
      | none =>
        match mkEntries b names (kahnOrder names.length adj) with
        | .error e => .error e
        | .ok entries =>
          .ok { modules := entries, grpcHub := b.grpcHub,
                grpcServices := b.grpcServices }

/-- A dependency edge at name level: `m` declares `d` among its deps. -/
def DepEdge (deps : List (String × List String)) (d m : String) : Prop :=
  ∃ p, p ∈ deps ∧ p.1 = m ∧ d ∈ p.2

/-- The declared dependency graph has a (nonempty, possibly self-loop)
cycle: a chain of dependency edges that closes on its first node. -/
def HasDepCycle (deps : List (String × List String)) : Prop :=
  ∃ a l, List.Chain' (DepEdge deps) (a :: l) ∧
    DepEdge deps ((a :: l).getLast (List.cons_ne_nil a l)) a

/-- Number of `i < k` with `(c + i) % n = j`: how often slot `j` is hit by
`k` successive round-robin picks starting from counter `c` over `n`
candidates. -/
def residCount (c n j k : Nat) : Nat :=
  (List.range k).countP fun i => decide ((c + i) % n = j)

/-! ## Specification predicates for the graph algorithms -/

/-- All adjacency targets are valid node indices. -/
def AdjWF (n : Nat) (adj : List (List Nat)) : Prop :=
  ∀ u, ∀ w ∈ adj.getD u [], w < n

/-- The finish list is closed under out-edges, which point to strictly
earlier finishers: `fin.indexOf` is a reverse topological ranking. -/
def RankOK (adj : List (List Nat)) (fin : List Nat) : Prop :=
  ∀ u ∈ fin, ∀ w, EdgeTo adj u w → w ∈ fin ∧ fin.indexOf w < fin.indexOf u

/-- Well-formedness of a DFS state: the Gray stack is a duplicate-free edge
chain, the Black list is a valid ranking, and the two are disjoint. -/
structure DfsInv (n : Nat) (adj : List (List Nat)) (st : DfsState) : Prop where
  pathNodup : st.path.Nodup
  finNodup : st.fin.Nodup
  disj : ∀ x ∈ st.path, x ∉ st.fin
  pathLt : ∀ x ∈ st.path, x < n
  finLt : ∀ x ∈ st.fin, x < n
  chain : List.Chain' (EdgeTo adj) st.path
  rank : RankOK adj st.fin

/-- What `detect_cycle_with_path` promises of an emitted path: at least two
entries, the last repeats the first, the nodes before the closing repeat
are pairwise distinct, consecutive entries are graph edges, and every entry
is a valid index — i.e. the listed nodes form one cycle, each exactly once,
and nothing else appears. -/
def CycleProps (n : Nat) (adj : List (List Nat)) (c : List Nat) : Prop :=
  2 ≤ c.length ∧ c.head? = c.getLast? ∧ c.dropLast.Nodup ∧
  List.Chain' (EdgeTo adj) c ∧ ∀ x ∈ c, x < n

/-- The index graph has a cycle: a nonempty chain of edges (possibly a
self-loop) over valid indices that closes on its first node. -/
def HasIdxCycle (n : Nat) (adj : List (List Nat)) : Prop :=
  ∃ a l, (∀ x ∈ a :: l, x < n) ∧ List.Chain' (EdgeTo adj) (a :: l) ∧
    EdgeTo adj ((a :: l).getLast (List.cons_ne_nil a l)) a

/-- Number of edges into `w` from nodes not yet emitted — what `indeg[w]`
holds at the top of Kahn's loop. -/
def remIndeg (n : Nat) (adj : List (List Nat)) (order : List Nat) (w : Nat) :
    Nat :=
  ((List.range n).map fun u =>
    if u ∈ order then 0 else (adj.getD u []).count w).sum

/-- The Kahn loop invariant. -/
structure KahnInv (n : Nat) (adj : List (List Nat))
    (indeg q order : List Nat) : Prop where
  nodup : (order ++ q).Nodup
  bound : ∀ x ∈ order ++ q, x < n
  indegLen : indeg.length = n
  indegSpec : ∀ w, w < n → indeg.getD w 0 = remIndeg n adj order w
  qZero : ∀ w ∈ q, remIndeg n adj order w = 0
  sound : ∀ w ∈ order, ∀ u, u < n → EdgeTo adj u w →
      u ∈ order ∧ order.indexOf u < order.indexOf w
  complete : ∀ w, w < n → remIndeg n adj order w = 0 → w ∈ order ∨ w ∈ q

/-! ## Concrete builders for the registry claims -/

/-- Two modules, `b` depending on `a`. -/
def bC1 : RegistryBuilderM :=
  registerCore (registerCore RegistryBuilderM.empty "a" []) "b" ["a"]

/-- The registry `build_topo_sorted` emits for `bC1` under the enumeration
`["a", "b"]`. -/
def regC1 : ModuleRegistryM :=
  ⟨[⟨"a", [], false, false, false, false, false, false, false⟩,
    ⟨"b", ["a"], false, false, false, false, false, false, false⟩], none, []⟩

/-- The mutual cycle `a ↔ b` plus a duplicate registration of `a`. -/
def bC2 : RegistryBuilderM :=
  registerCore (registerCore (registerCore RegistryBuilderM.empty
    "a" ["b"]) "b" ["a"]) "a" []

/-- The mutual cycle `a ↔ b`, with no validation errors. -/
def bC2w : RegistryBuilderM :=
  registerCore (registerCore RegistryBuilderM.empty "a" ["b"]) "b" ["a"]

/-- Two dependency-free modules, registered as `x` then `y`. -/
def bC3 : RegistryBuilderM :=
  registerCore (registerCore RegistryBuilderM.empty "x" []) "y" []

/-- The registry emitted for `bC3` under the enumeration `["y", "x"]`. -/
def regC3 : ModuleRegistryM :=
  ⟨[⟨"y", [], false, false, false, false, false, false, false⟩,
    ⟨"x", [], false, false, false, false, false, false, false⟩], none, []⟩

end Hyperspot

namespace Hyperspot

/-! # Theorems -/

/-! ## C10 — colliding default handler ids -/

/-- C10: the path templates `/users/{id}` and `/users/_id_` are distinct,
yet `OperationBuilder::new` derives the same default `handler_id` for both
(`'/'`, `'{'` and `'}'` are all replaced by `'_'`); consequently
`ApiIngress::register_operation` drops the second operation on the
duplicate-`handler_id` check although its `(method, path)` pair is unique:
the operation map still holds only the first spec and the duplicate report
is logged. -/
theorem c10_handler_id_collision :
    ("/users/{id}" : String) ≠ "/users/_id_" ∧
    derivedHandlerId "GET" "/users/{id}" = derivedHandlerId "GET" "/users/_id_" ∧
    (let s1 := obNew "GET" "/users/{id}"
     let s2 := obNew "GET" "/users/_id_"
     let st1 := registerOperation IngressState.empty s1
     let st2 := registerOperation st1 s2
     (s1.method, s1.path) ≠ (s2.method, s2.path) ∧
     st2.operationSpecs = st1.operationSpecs ∧
     st2.operationSpecs.length = 1 ∧
     st2.errorLog =
       ["Duplicate handler_id detected; ignoring subsequent registration"]) := by
  decide

/-! ## C8 — readiness is notified before the bind -/

/-- C8 (evaluation at the failing input): with one installed service,
`GrpcHub::run_with_installers` produces the event order
`routesBuilt, readyNotified, bound, served` — the readiness notification
strictly precedes the bind, contradicting the bind-before-ready contract. -/
theorem c8_ready_notified_before_bind :
    runWithInstallers ["svc"] =
      .ok [.routesBuilt, .readyNotified, .bound, .served] ∧
    ([HubEvent.routesBuilt, .readyNotified, .bound, .served].indexOf
        .readyNotified <
      [HubEvent.routesBuilt, .readyNotified, .bound, .served].indexOf
        .bound) := by
  exact ⟨rfl, by decide⟩

/-! ## C7 — the installer store hand-off -/

/-- C7 counterexample: after `set` and one `take`, a second `take` (and a
second run of the hub serve routine) succeeds silently with the empty
installer list — it does not fail as the claim states. -/
theorem c7_second_take_succeeds :
    storeSet ["svc"] [] = .ok ["svc"] ∧
    storeTake ["svc"] = (["svc"], []) ∧
    storeTake (storeTake ["svc"]).2 = ([], []) ∧
    hubServe (some ["svc"]) = .ok (["svc"], some []) ∧
    hubServe (some []) = .ok ([], some []) ∧
    (hubServe (some [])).isOk = true := by
  exact ⟨rfl, rfl, rfl, rfl, rfl, rfl⟩

/-- C7 as amended: `take` never fails — it hands back the contents and
leaves the store empty, so a second `take` silently returns the empty list
(and a wired hub's serve routine never fails on reuse); `set` fails exactly
when the store is currently non-empty. -/
theorem c7_one_shot_handoff (store : InstallerStore)
    (installers : List String) :
    (storeSet installers store =
        .error "gRPC installers already initialized" ↔ store ≠ []) ∧
    storeTake store = (store, []) ∧
    storeTake (storeTake store).2 = ([], []) ∧
    (hubServe (some store)).isOk = true ∧
    (hubServe none).isOk = false := by
  refine ⟨?_, rfl, rfl, rfl, rfl⟩
  unfold storeSet
  by_cases h : store = [] <;> simp [h]

/-- Witness for `c7_one_shot_handoff` on a store holding one installer. -/
theorem c7_one_shot_witness :
    (storeSet ["b"] ["a"] =
        .error "gRPC installers already initialized" ↔ (["a"] : List String) ≠ []) ∧
    storeTake ["a"] = (["a"], []) ∧
    storeTake (storeTake ["a"]).2 = ([], []) ∧
    (hubServe (some ["a"])).isOk = true ∧
    (hubServe none).isOk = false :=
  c7_one_shot_handoff ["a"] ["b"]

/-! ## C5 — evict_stale staleness decay -/

/-- C5 counterexample: with `ttl = 1`, `grace = 1`, a `Healthy` instance
whose heartbeat age is already `2 ≥ ttl + grace` is NOT removed by
`evict_stale` — the call only quarantines it (the `retain` closure returns
`true` right after quarantining, without testing the grace bound), so
removal needs a second call.  The claim predicts removal exactly at
`age ≥ ttl + grace`. -/
theorem c5_not_removed_at_ttl_plus_grace :
    1 + 1 ≤ 2 - 0 ∧
    evictStale 1 1 2 [⟨"i1", 0, .Healthy⟩] = [⟨"i1", 0, .Quarantined⟩] ∧
    evictStale 1 1 2 [⟨"i1", 0, .Healthy⟩] ≠ [] := by
  decide

/-- C5 as amended: one `evict_stale` pass quarantines a non-quarantined,
non-draining instance exactly when `age ≥ ttl`, and removes an instance
exactly when it is already `Quarantined` and `age ≥ ttl + grace`; hence a
`Healthy` instance older than `ttl + grace` is quarantined by the first
pass and removed only by a subsequent one. -/
theorem c5_quarantine_and_evict (ttl grace now : Nat) (inst : InstanceM) :
    (evictStep ttl grace now inst = none ↔
      inst.state = .Quarantined ∧ ttl + grace ≤ now - inst.lastHeartbeat) ∧
    (inst.state = .Healthy →
      ((evictStep ttl grace now inst = some { inst with state := .Quarantined })
          ↔ ttl ≤ now - inst.lastHeartbeat) ∧
      (¬ ttl ≤ now - inst.lastHeartbeat →
        evictStep ttl grace now inst = some inst)) ∧
    (evictStale ttl grace now [inst] = [] ↔
      inst.state = .Quarantined ∧ ttl + grace ≤ now - inst.lastHeartbeat) := by
  obtain ⟨iid, ihb, ist⟩ := inst
  have hnone : evictStep ttl grace now ⟨iid, ihb, ist⟩ = none ↔
      ist = .Quarantined ∧ ttl + grace ≤ now - ihb := by
    by_cases hQ : ist = InstanceState.Quarantined
    · subst hQ
      by_cases hG : ttl + grace ≤ now - ihb <;> simp [evictStep, hG]
    · constructor
      · intro h
        dsimp only [evictStep] at h
        split at h
        · exact absurd h (by simp)
        · split at h
          · rename_i hB
            exact absurd hB.1 hQ
          · exact absurd h (by simp)
      · rintro ⟨h, -⟩
        exact absurd h hQ
  refine ⟨hnone, ?_, ?_⟩
  · intro hH
    simp only at hH
    subst hH
    constructor
    · by_cases hT : ttl ≤ now - ihb <;> simp [evictStep, hT]
    · intro hT
      simp [evictStep, hT]
  · rw [← hnone]
    cases h : evictStep ttl grace now ⟨iid, ihb, ist⟩ <;>
      simp [evictStale, List.filterMap_cons, h]

/-- Witness for `c5_quarantine_and_evict` at the counterexample's policy
and a `Healthy` instance of age `2`. -/
theorem c5_quarantine_witness :
    (evictStep 1 1 2 ⟨"i1", 0, .Healthy⟩ = none ↔
      (InstanceM.mk "i1" 0 .Healthy).state = .Quarantined ∧ 1 + 1 ≤ 2 - 0) ∧
    ((InstanceM.mk "i1" 0 .Healthy).state = .Healthy →
      ((evictStep 1 1 2 ⟨"i1", 0, .Healthy⟩ =
          some { InstanceM.mk "i1" 0 .Healthy with state := .Quarantined }) ↔
        1 ≤ 2 - 0) ∧
      (¬ 1 ≤ 2 - 0 →
        evictStep 1 1 2 ⟨"i1", 0, .Healthy⟩ =
          some (InstanceM.mk "i1" 0 .Healthy))) ∧
    (evictStale 1 1 2 [⟨"i1", 0, .Healthy⟩] = [] ↔
      (InstanceM.mk "i1" 0 .Healthy).state = .Quarantined ∧ 1 + 1 ≤ 2 - 0) :=
  c5_quarantine_and_evict 1 1 2 ⟨"i1", 0, .Healthy⟩

/-! ## C4 — stop order vs start order -/

/-- C4 counterexample: registry order `[a, b]` with `a` non-system stateful
and `b` system stateful.  Start order (system first) is `[b, a]`; its
reverse is `[a, b]`; but the stop phase iterates the registry order
reversed, stopping `[b, a]`. -/
theorem c4_stop_not_reverse_start :
    (let eA : ModuleEntryM :=
       ⟨"a", [], false, false, false, true, false, false, false⟩
     let eB : ModuleEntryM :=
       ⟨"b", [], false, false, false, true, true, false, false⟩
     startInvocations [eA, eB] = ["b", "a"] ∧
     stopInvocations (fun _ => false) [eA, eB] = ["b", "a"] ∧
     stopInvocations (fun _ => false) [eA, eB] ≠
       (startInvocations [eA, eB]).reverse) := by
  decide

/-- Folding the stop loop collects exactly the stateful entries, in
iteration order, independently of which stops fail. -/
theorem runStopPhase_eq (err : String → Bool) (ms : List ModuleEntryM) :
    runStopPhase err ms =
      (ms.reverse.filter fun e => e.hasStateful).map
        (fun e => (e.name, !err e.name)) := by
  unfold runStopPhase
  have key : ∀ (l : List ModuleEntryM) (acc : List (String × Bool)),
      l.foldl
          (fun acc e =>
            if e.hasStateful then acc ++ [(e.name, !err e.name)] else acc)
          acc =
        acc ++ (l.filter fun e => e.hasStateful).map
          (fun e => (e.name, !err e.name)) := by
    intro l
    induction l with
    | nil => simp
    | cons e t ih =>
      intro acc
      by_cases h : e.hasStateful <;> simp [h, ih, List.filter_cons]
  simpa using key ms.reverse []

/-- C4 as amended: the stop phase invokes `stop` on every stateful module —
the invocation list is independent of which stops fail — in the reverse of
the plain registry (topo) order, ignoring system priority.  This equals the
reverse of the start order exactly under the extra premise that no
non-system stateful module precedes a system stateful module in registry
order (the premise the counterexample violates). -/
theorem c4_stop_reverse_of_registry_order (err : String → Bool)
    (ms : List ModuleEntryM)
    (hpre : ms.filter (fun e => e.hasStateful) =
      ms.filter (fun e => e.hasStateful && e.isSystem) ++
        ms.filter (fun e => e.hasStateful && !e.isSystem)) :
    stopInvocations err ms =
      ((ms.filter fun e => e.hasStateful).reverse.map fun e => e.name) ∧
    stopInvocations err ms = stopInvocations (fun _ => false) ms ∧
    stopInvocations err ms = (startInvocations ms).reverse := by
  have base : ∀ g : String → Bool, stopInvocations g ms =
      ((ms.filter fun e => e.hasStateful).reverse.map fun e => e.name) := by
    intro g
    unfold stopInvocations
    rw [runStopPhase_eq, ← List.filter_reverse, List.map_map]
    rfl
  refine ⟨base err, (base err).trans (base _).symm, ?_⟩
  rw [base err]
  unfold startInvocations modulesBySystemPriority
  rw [List.filter_append, List.filter_filter, List.filter_filter, hpre]
  simp [List.map_append, List.reverse_append]

/-- Witness for `c4_stop_reverse_of_registry_order`: a system stateful
module followed by a non-system stateful one, with a failing stop. -/
theorem c4_stop_reverse_witness :
    (let eS : ModuleEntryM :=
       ⟨"s", [], false, false, false, true, true, false, false⟩
     let eU : ModuleEntryM :=
       ⟨"u", [], false, false, false, true, false, false, false⟩
     stopInvocations (fun n => n = "u") [eS, eU] =
        (([eS, eU].filter fun e => e.hasStateful).reverse.map
          fun e => e.name) ∧
      stopInvocations (fun n => n = "u") [eS, eU] =
        stopInvocations (fun _ => false) [eS, eU] ∧
      stopInvocations (fun n => n = "u") [eS, eU] =
        (startInvocations [eS, eU]).reverse) :=
  c4_stop_reverse_of_registry_order (fun n => n = "u") _ (by decide)

/-! ## C9 — duplicate operation registrations -/

/-- C9 counterexample: two registrations that share a `handler_id` but have
distinct paths produce TWO entries in the axum router —
`OperationBuilder::register` calls `Router::route` unconditionally, before
any duplicate test — even though only one OpenAPI operation is recorded.
The claim's "exactly one route is registered" fails. -/
theorem c9_two_router_entries :
    (let s1 := obNew "GET" "/users/{id}"
     let s2 := obNew "GET" "/users/_id_"
     let r1 := obRegister [] IngressState.empty s1
     let r2 := obRegister r1.1 r1.2 s2
     s1.handlerId = s2.handlerId ∧
     r2.1 = [("get", "/users/{id}"), ("get", "/users/_id_")] ∧
     r2.1.length = 2 ∧ ¬ r2.1.length = 1 ∧
     r2.2.operationSpecs.length = 1 ∧
     r2.2.errorLog.length = 1) := by
  decide

/-- A registration whose `handler_id` or `(method, path)` is already
recorded leaves the operation and route tables untouched and appends one
error-log entry. -/
theorem registerOperation_dup (st1 : IngressState) (s : OperationSpec)
    (hdup : s.handlerId ∈ st1.registeredHandlers ∨
      (s.method, s.path) ∈ st1.registeredRoutes) :
    (registerOperation st1 s).operationSpecs = st1.operationSpecs ∧
    (registerOperation st1 s).registeredRoutes = st1.registeredRoutes ∧
    (registerOperation st1 s).errorLog.length = st1.errorLog.length + 1 := by
  by_cases hmem : s.handlerId ∈ st1.registeredHandlers
  · simp [registerOperation, hmem]
  · have hroute : (s.method, s.path) ∈ st1.registeredRoutes :=
      hdup.resolve_left hmem
    simp [registerOperation, hmem, hroute]

/-- C9 as amended: for a first-time registration followed by a duplicate
(same `handler_id` or same `(method, path)`), exactly one OpenAPI operation
is recorded — the first; the duplicate is logged as an error and dropped
from the operation and route tables without altering the recorded
operation; but the axum router unconditionally gains the duplicate's
`(method, path)` entry as well. -/
theorem c9_first_wins_in_registry (router : List (String × String))
    (st : IngressState) (s1 s2 : OperationSpec)
    (h1 : s1.handlerId ∉ st.registeredHandlers)
    (h2 : (s1.method, s1.path) ∉ st.registeredRoutes)
    (hdup : s2.handlerId = s1.handlerId ∨
      (s2.method = s1.method ∧ s2.path = s1.path)) :
    (registerOperation st s1).operationSpecs =
        insertKeyed (s1.method ++ ":" ++ s1.path) s1 st.operationSpecs ∧
    (registerOperation (registerOperation st s1) s2).operationSpecs =
        (registerOperation st s1).operationSpecs ∧
    (registerOperation (registerOperation st s1) s2).registeredRoutes =
        (registerOperation st s1).registeredRoutes ∧
    (registerOperation (registerOperation st s1) s2).errorLog.length =
        (registerOperation st s1).errorLog.length + 1 ∧
    (obRegister (obRegister router st s1).1 (obRegister router st s1).2
        s2).1 =
      (obRegister router st s1).1 ++ [(s2.method, s2.path)] := by
  have hreg1 : registerOperation st s1 =
      { st with
        registeredHandlers := st.registeredHandlers ++ [s1.handlerId],
        registeredRoutes := st.registeredRoutes ++ [(s1.method, s1.path)],
        operationSpecs :=
          insertKeyed (s1.method ++ ":" ++ s1.path) s1 st.operationSpecs } := by
    simp [registerOperation, h1, h2]
  have hd2 : s2.handlerId ∈ (registerOperation st s1).registeredHandlers ∨
      (s2.method, s2.path) ∈ (registerOperation st s1).registeredRoutes := by
    rw [hreg1]
    rcases hdup with hh | ⟨hm, hp⟩
    · left; simp [hh]
    · right; simp [hm, hp]
  obtain ⟨ha, hb, hc⟩ := registerOperation_dup _ _ hd2
  exact ⟨by rw [hreg1], ha, hb, hc, rfl⟩

/-- Witness for `c9_first_wins_in_registry` at the colliding-handler-id
pair from the C10 scenario, starting from the empty ingress state. -/
theorem c9_first_wins_witness :
    (registerOperation IngressState.empty (obNew "GET" "/users/{id}")).operationSpecs =
        insertKeyed ((obNew "GET" "/users/{id}").method ++ ":" ++
            (obNew "GET" "/users/{id}").path)
          (obNew "GET" "/users/{id}") IngressState.empty.operationSpecs ∧
    (registerOperation
        (registerOperation IngressState.empty (obNew "GET" "/users/{id}"))
        (obNew "GET" "/users/_id_")).operationSpecs =
      (registerOperation IngressState.empty
          (obNew "GET" "/users/{id}")).operationSpecs ∧
    (registerOperation
        (registerOperation IngressState.empty (obNew "GET" "/users/{id}"))
        (obNew "GET" "/users/_id_")).registeredRoutes =
      (registerOperation IngressState.empty
          (obNew "GET" "/users/{id}")).registeredRoutes ∧
    (registerOperation
        (registerOperation IngressState.empty (obNew "GET" "/users/{id}"))
        (obNew "GET" "/users/_id_")).errorLog.length =
      (registerOperation IngressState.empty
          (obNew "GET" "/users/{id}")).errorLog.length + 1 ∧
    (obRegister
        (obRegister [] IngressState.empty (obNew "GET" "/users/{id}")).1
        (obRegister [] IngressState.empty (obNew "GET" "/users/{id}")).2
        (obNew "GET" "/users/_id_")).1 =
      (obRegister [] IngressState.empty (obNew "GET" "/users/{id}")).1 ++
        [((obNew "GET" "/users/_id_").method,
          (obNew "GET" "/users/_id_").path)] :=
  c9_first_wins_in_registry [] IngressState.empty _ _ (by decide) (by decide)
    (Or.inl (by decide))

/-! ## C6 — round-robin selection -/

/-- With a non-empty selectable subset, one pick returns the slot at the
counter modulo the selectable count and bumps the counter by one (modulo
the same count). -/
theorem pickInstanceRR_eq (insts : List InstanceM) (c : Nat)
    (hne : insts.filter (fun i => decide (selectable i.state)) ≠ []) :
    pickInstanceRR insts c =
      ((insts.filter fun i => decide (selectable i.state)).get?
          (c % (insts.filter fun i => decide (selectable i.state)).length),
        (c + 1) %
          (insts.filter fun i => decide (selectable i.state)).length) := by
  have hinsts : insts ≠ [] := by
    intro h
    subst h
    simp at hne
  obtain ⟨x, xs, rfl⟩ := List.exists_cons_of_ne_nil hinsts
  show (let healthy := (x :: xs).filter fun i => decide (selectable i.state)
    let candidates := if healthy = [] then x :: xs else healthy
    ((candidates.get? (c % candidates.length)),
      (c + 1) % candidates.length)) = _
  simp only [if_neg hne]

/-- The picks of `k` successive calls are the selectable slots at counters
`c0, c0 + 1, …, c0 + k - 1`, each taken modulo the selectable count. -/
theorem runPicks_map (insts : List InstanceM) (k c0 : Nat)
    (hne : insts.filter (fun i => decide (selectable i.state)) ≠ []) :
    (runPicks k insts c0).1 =
      (List.range k).map fun i =>
        (insts.filter fun j => decide (selectable j.state)).get?
          ((c0 + i) %
            (insts.filter fun j => decide (selectable j.state)).length) := by
  induction k generalizing c0 with
  | zero => simp [runPicks]
  | succ k ih =>
    show (pickInstanceRR insts c0).1 ::
        (runPicks k insts (pickInstanceRR insts c0).2).1 = _
    rw [pickInstanceRR_eq insts c0 hne]
    rw [List.range_succ_eq_map, List.map_cons, List.map_map]
    dsimp only
    rw [ih, Nat.add_zero]
    congr 1
    apply List.map_congr_left
    intro i _
    rw [Function.comp_apply, Nat.mod_add_mod]
    have harg : c0 + 1 + i = c0 + i.succ := by omega
    rw [harg]

/-- In a window of at most `n` consecutive counters, each slot is hit at
most once. -/
theorem residCount_le_one (c n j k : Nat) (hk : k ≤ n) :
    residCount c n j k ≤ 1 := by
  unfold residCount
  rw [List.countP_eq_length_filter]
  by_contra h
  push_neg at h
  set l := (List.range k).filter fun i => decide ((c + i) % n = j) with hl
  have hnd : l.Nodup := (List.nodup_range k).filter _
  have h0 : 0 < l.length := by omega
  have h1 : 1 < l.length := h
  have hgetne : l.get ⟨0, h0⟩ ≠ l.get ⟨1, h1⟩ := by
    intro he
    have := (List.Nodup.get_inj_iff hnd).mp he
    simp at this
  have hmem0 : l.get ⟨0, h0⟩ ∈ l := List.get_mem l 0 h0
  have hmem1 : l.get ⟨1, h1⟩ ∈ l := List.get_mem l 1 h1
  have hp0 := List.of_mem_filter hmem0
  have hp1 := List.of_mem_filter hmem1
  have hr0 := List.mem_range.mp (List.mem_of_mem_filter hmem0)
  have hr1 := List.mem_range.mp (List.mem_of_mem_filter hmem1)
  simp only [decide_eq_true_eq] at hp0 hp1
  have hmod : (l.get ⟨0, h0⟩) % n = (l.get ⟨1, h1⟩) % n := by
    have hcongr : (c + l.get ⟨0, h0⟩) % n = (c + l.get ⟨1, h1⟩) % n := by
      rw [hp0, hp1]
    have := Nat.ModEq.add_left_cancel' c hcongr
    exact this
  have e0 : (l.get ⟨0, h0⟩) % n = l.get ⟨0, h0⟩ := Nat.mod_eq_of_lt (by omega)
  have e1 : (l.get ⟨1, h1⟩) % n = l.get ⟨1, h1⟩ := Nat.mod_eq_of_lt (by omega)
  exact hgetne (by rw [← e0, ← e1, hmod])

/-- Over one full cycle of `n` counters each slot `j < n` is hit exactly
once. -/
theorem residCount_full_window (c n j : Nat) (hn : 0 < n) (hj : j < n) :
    residCount c n j n = 1 := by
  refine le_antisymm (residCount_le_one c n j n le_rfl) ?_
  unfold residCount
  rw [List.countP_eq_length_filter]
  have hi0 : (n + j - c % n) % n ∈
      (List.range n).filter fun i => decide ((c + i) % n = j) := by
    refine List.mem_filter.mpr ⟨List.mem_range.mpr (Nat.mod_lt _ hn), ?_⟩
    simp only [decide_eq_true_eq]
    have hlt : c % n < n := Nat.mod_lt _ hn
    have hc := Nat.div_add_mod c n
    have hT : c + (n + j - c % n) = n * (c / n) + (n + j) := by omega
    rw [Nat.add_mod_mod, hT, Nat.mul_add_mod, Nat.add_mod_left]
    exact Nat.mod_eq_of_lt hj
  exact List.length_pos.mpr (List.ne_nil_of_mem hi0)

/-- Prepending one full cycle adds exactly one hit. -/
theorem residCount_add_cycle (c n j m : Nat) (hn : 0 < n) (hj : j < n) :
    residCount c n j (n + m) = 1 + residCount c n j m := by
  unfold residCount
  rw [List.range_add, List.countP_append, List.countP_map]
  have h1 : (List.range n).countP (fun i => decide ((c + i) % n = j)) = 1 :=
    residCount_full_window c n j hn hj
  have h2 : (List.range m).countP
        ((fun i => decide ((c + i) % n = j)) ∘ (n + ·)) =
      (List.range m).countP fun i => decide ((c + i) % n = j) := by
    apply List.countP_congr
    intro i _
    simp only [Function.comp]
    have : c + (n + i) = c + i + n := by omega
    rw [this, Nat.add_mod_right]
  rw [h1, h2]

/-- Each slot `j < n` is hit either `⌊k / n⌋` or `⌊k / n⌋ + 1` times by `k`
successive picks. -/
theorem residCount_bounds (c n j : Nat) (hn : 0 < n) (hj : j < n) :
    ∀ k, k / n ≤ residCount c n j k ∧ residCount c n j k ≤ k / n + 1 := by
  intro k
  induction k using Nat.strong_induction_on with
  | _ k ih =>
    by_cases hk : k < n
    · rw [Nat.div_eq_of_lt hk]
      exact ⟨Nat.zero_le _, residCount_le_one c n j k (le_of_lt hk)⟩
    · push_neg at hk
      have hdecomp : k = n + (k - n) := by omega
      have hlt : k - n < k := by omega
      obtain ⟨hlo, hhi⟩ := ih (k - n) hlt
      have hrc : residCount c n j k = 1 + residCount c n j (k - n) := by
        conv_lhs => rw [hdecomp]
        exact residCount_add_cycle c n j (k - n) hn hj
      have hdiv : k / n = (k - n) / n + 1 := by
        conv_lhs => rw [hdecomp, Nat.add_comm n (k - n)]
        exact Nat.add_div_right _ hn
      rw [hrc, hdiv]
      omega

/-- With duplicate-free instances, the number of times a selectable
instance is picked over `k` calls is the number of counter values hitting
its slot. -/
theorem count_runPicks (insts : List InstanceM) (c0 k : Nat)
    (hnd : insts.Nodup)
    (a : InstanceM)
    (ha : a ∈ insts.filter fun i => decide (selectable i.state)) :
    (runPicks k insts c0).1.count (some a) =
      residCount c0 (insts.filter fun i => decide (selectable i.state)).length
        ((insts.filter fun i => decide (selectable i.state)).indexOf a) k := by
  set H := insts.filter fun i => decide (selectable i.state) with hH
  have hne : H ≠ [] := List.ne_nil_of_mem ha
  have hlen : 0 < H.length := List.length_pos.mpr hne
  have hHnd : H.Nodup := hnd.filter _
  have hja : H.indexOf a < H.length := List.indexOf_lt_length.mpr ha
  rw [runPicks_map insts k c0 hne]
  rw [List.count_eq_countP, List.countP_map]
  unfold residCount
  apply List.countP_congr
  intro i _
  simp only [Function.comp, beq_iff_eq, decide_eq_true_eq]
  have hm : (c0 + i) % H.length < H.length := Nat.mod_lt _ hlen
  constructor
  · intro hsome
    have hget : H.get ⟨(c0 + i) % H.length, hm⟩ = a := by
      have := List.get?_eq_get hm
      rw [← hH] at hsome
      rw [this] at hsome
      exact Option.some.inj hsome
    have hgetja : H.get ⟨H.indexOf a, hja⟩ = a := by
      simp [List.getElem_indexOf hja]
    have := (hHnd.get_inj_iff).mp (hget.trans hgetja.symm)
    simpa using this
  · intro heq
    rw [← hH, heq, List.get?_eq_get hja]
    have : H.get ⟨H.indexOf a, hja⟩ = a := by
      simp [List.getElem_indexOf hja]
    rw [this]

/-- C6: over `k` successive round-robin picks from an unchanged instance
vector, (i) given at least two selectable instances, any two selectable
instances are picked numbers of times that differ by at most one, and
(ii) whenever at least one selectable instance exists, every pick returns a
selectable instance of the vector — never a `Registered`, `Quarantined` or
`Draining` one. -/
theorem c6_round_robin (insts : List InstanceM) (c0 k : Nat)
    (hnd : (insts.map fun i => i.instanceId).Nodup) :
    (2 ≤ (insts.filter fun i => decide (selectable i.state)).length →
      ∀ a ∈ insts.filter (fun i => decide (selectable i.state)),
      ∀ b ∈ insts.filter (fun i => decide (selectable i.state)),
        (runPicks k insts c0).1.count (some a) ≤
          (runPicks k insts c0).1.count (some b) + 1) ∧
    ((insts.filter fun i => decide (selectable i.state)) ≠ [] →
      ∀ p ∈ (runPicks k insts c0).1, ∃ e,
        p = some e ∧ selectable e.state ∧ e ∈ insts) := by
  have hinodup : insts.Nodup := List.Nodup.of_map _ hnd
  constructor
  · intro h2 a ha b hb
    have hlen : 0 < (insts.filter fun i => decide (selectable i.state)).length :=
      lt_of_lt_of_le (by norm_num) h2
    rw [count_runPicks insts c0 k hinodup a ha,
      count_runPicks insts c0 k hinodup b hb]
    have hja := List.indexOf_lt_length.mpr ha
    have hjb := List.indexOf_lt_length.mpr hb
    obtain ⟨-, hupa⟩ := residCount_bounds c0 _ _ hlen hja k
    obtain ⟨hlob, -⟩ := residCount_bounds c0 _ _ hlen hjb k
    omega
  · intro hne p hp
    rw [runPicks_map insts k c0 hne] at hp
    obtain ⟨i, -, rfl⟩ := List.mem_map.mp hp
    have hlen : 0 < (insts.filter fun i => decide (selectable i.state)).length :=
      List.length_pos.mpr hne
    have hm : (c0 + i) % (insts.filter fun i =>
        decide (selectable i.state)).length <
        (insts.filter fun i => decide (selectable i.state)).length :=
      Nat.mod_lt _ hlen
    refine ⟨(insts.filter fun i => decide (selectable i.state)).get ⟨_, hm⟩,
      List.get?_eq_get hm, ?_, ?_⟩
    · have hmem := List.get_mem (insts.filter fun i =>
        decide (selectable i.state)) _ hm
      have := (List.mem_filter.mp hmem).2
      simpa using this
    · have hmem := List.get_mem (insts.filter fun i =>
        decide (selectable i.state)) _ hm
      exact (List.mem_filter.mp hmem).1

/-- Witness for `c6_round_robin`: three instances, two selectable, six
picks starting from counter `0`. -/
theorem c6_round_robin_witness :
    (2 ≤ ([⟨"a", 0, .Healthy⟩, ⟨"b", 0, .Quarantined⟩,
        ⟨"c", 0, .Ready⟩].filter fun i :
          InstanceM => decide (selectable i.state)).length →
      ∀ a ∈ [InstanceM.mk "a" 0 .Healthy, ⟨"b", 0, .Quarantined⟩,
          ⟨"c", 0, .Ready⟩].filter
            (fun i => decide (selectable i.state)),
      ∀ b ∈ [InstanceM.mk "a" 0 .Healthy, ⟨"b", 0, .Quarantined⟩,
          ⟨"c", 0, .Ready⟩].filter
            (fun i => decide (selectable i.state)),
        (runPicks 6 [⟨"a", 0, .Healthy⟩, ⟨"b", 0, .Quarantined⟩,
            ⟨"c", 0, .Ready⟩] 0).1.count (some a) ≤
          (runPicks 6 [⟨"a", 0, .Healthy⟩, ⟨"b", 0, .Quarantined⟩,
            ⟨"c", 0, .Ready⟩] 0).1.count (some b) + 1) ∧
    (([⟨"a", 0, .Healthy⟩, ⟨"b", 0, .Quarantined⟩,
        ⟨"c", 0, .Ready⟩].filter fun i :
          InstanceM => decide (selectable i.state)) ≠ [] →
      ∀ p ∈ (runPicks 6 [⟨"a", 0, .Healthy⟩, ⟨"b", 0, .Quarantined⟩,
          ⟨"c", 0, .Ready⟩] 0).1, ∃ e,
        p = some e ∧ selectable e.state ∧
          e ∈ [InstanceM.mk "a" 0 .Healthy, ⟨"b", 0, .Quarantined⟩,
            ⟨"c", 0, .Ready⟩]) :=
  c6_round_robin [⟨"a", 0, .Healthy⟩, ⟨"b", 0, .Quarantined⟩,
    ⟨"c", 0, .Ready⟩] 0 6 (by decide)

/-! ## Kahn machinery -/

/-- Reading back the written slot. -/
theorem getD_set_self (l : List Nat) (i v : Nat) (h : i < l.length) :
    (l.set i v).getD i 0 = v := by
  simp [List.getD_eq_getElem?_getD, List.getElem?_set_self h]

/-- Reading another slot. -/
theorem getD_set_ne (l : List Nat) (i j v : Nat) (h : i ≠ j) :
    (l.set i v).getD j 0 = l.getD j 0 := by
  simp [List.getD_eq_getElem?_getD, List.getElem?_set_ne h]

/-- A duplicate-free list of naturals below `n` has at most `n` elements. -/
theorem nodup_length_le (l : List Nat) (n : Nat) (hnd : l.Nodup)
    (hlt : ∀ x ∈ l, x < n) : l.length ≤ n := by
  have hsub : l.toFinset ⊆ Finset.range n := by
    intro x hx
    exact Finset.mem_range.mpr (hlt x (List.mem_toFinset.mp hx))
  calc l.length = l.toFinset.card := (List.toFinset_card_of_nodup hnd).symm
    _ ≤ (Finset.range n).card := Finset.card_le_card hsub
    _ = n := Finset.card_range n

/-- Summing over a duplicate-free index list where the two summands agree
except at one index, where they differ by `c`. -/
theorem sum_map_peel (l : List Nat) (u c : Nat) (f g : Nat → Nat)
    (hu : u ∈ l) (hnd : l.Nodup)
    (hne : ∀ x ∈ l, x ≠ u → f x = g x) (hequ : f u = g u + c) :
    (l.map f).sum = (l.map g).sum + c := by
  induction l with
  | nil => simp at hu
  | cons x t ih =>
    rcases List.mem_cons.mp hu with rfl | hut
    · have htmap : t.map f = t.map g := by
        apply List.map_congr_left
        intro y hy
        exact hne y (List.mem_cons_of_mem _ hy)
          (fun hyx => (List.nodup_cons.mp hnd).1 (hyx ▸ hy))
      simp only [List.map_cons, List.sum_cons, htmap, hequ]
      omega
    · have hxu : x ≠ u := fun hxu => (List.nodup_cons.mp hnd).1 (hxu ▸ hut)
      have := ih hut (List.nodup_cons.mp hnd).2
        (fun y hy => hne y (List.mem_cons_of_mem _ hy))
      simp only [List.map_cons, List.sum_cons, this,
        hne x (List.mem_cons_self x t) hxu]
      omega

/-- Emitting `u` removes its adjacency row from every remaining indegree. -/
theorem remIndeg_append (n : Nat) (adj : List (List Nat))
    (order : List Nat) (u w : Nat) (hun : u < n) (hu : u ∉ order) :
    remIndeg n adj order w =
      remIndeg n adj (order ++ [u]) w + (adj.getD u []).count w := by
  unfold remIndeg
  apply sum_map_peel _ u _ _ _ (List.mem_range.mpr hun) (List.nodup_range n)
  · intro x _ hxu
    have : (x ∈ order ++ [u]) ↔ x ∈ order := by simp [hxu]
    by_cases hx : x ∈ order <;> simp [hx, this]
  · simp [hu]

/-- Remaining indegrees only shrink as the order grows. -/
theorem remIndeg_append_le (n : Nat) (adj : List (List Nat))
    (order : List Nat) (u w : Nat) (hun : u < n) (hu : u ∉ order) :
    remIndeg n adj (order ++ [u]) w ≤ remIndeg n adj order w := by
  rw [remIndeg_append n adj order u w hun hu]
  omega

/-- A positive remaining indegree exhibits a not-yet-emitted predecessor. -/
theorem remIndeg_exists_pred (n : Nat) (adj : List (List Nat))
    (order : List Nat) (w : Nat)
    (h : remIndeg n adj order w ≠ 0) :
    ∃ u, u < n ∧ u ∉ order ∧ EdgeTo adj u w := by
  unfold remIndeg at h
  have := (not_iff_not.mpr List.sum_eq_zero_iff).mp h
  push_neg at this
  obtain ⟨t, ht, htne⟩ := this
  obtain ⟨u, hu, rfl⟩ := List.mem_map.mp ht
  by_cases huo : u ∈ order
  · simp [huo] at htne
  · refine ⟨u, List.mem_range.mp hu, huo, ?_⟩
    simp only [huo, if_false] at htne
    exact List.count_pos_iff.mp (Nat.pos_of_ne_zero htne)

/-- The current row bounds the remaining indegree of each of its targets
from below. -/
theorem count_le_remIndeg (n : Nat) (adj : List (List Nat))
    (order : List Nat) (u w : Nat) (hun : u < n) (hu : u ∉ order) :
    (adj.getD u []).count w ≤ remIndeg n adj order w := by
  unfold remIndeg
  have hmem : (if u ∈ order then 0 else (adj.getD u []).count w) ∈
      (List.range n).map fun x =>
        if x ∈ order then 0 else (adj.getD x []).count w :=
    List.mem_map.mpr ⟨u, List.mem_range.mpr hun, rfl⟩
  have := List.single_le_sum (fun y _ => Nat.zero_le y) _ hmem
  simpa [hu] using this

/-- Exact effect of relaxing one adjacency row: with no underflow (the
invariant guarantees `count ≤ indeg`), every indegree drops by its
multiplicity in the row, and the queue gains exactly the nodes whose
indegree thereby reached zero, each once. -/
theorem kahnRelax_fold (l : List Nat) : ∀ indeg q : List Nat,
    (∀ w, l.count w ≤ indeg.getD w 0) →
    (l.foldl kahnRelax (indeg, q)).1.length = indeg.length ∧
    (∀ w, (l.foldl kahnRelax (indeg, q)).1.getD w 0 =
      indeg.getD w 0 - l.count w) ∧
    ∃ p, (l.foldl kahnRelax (indeg, q)).2 = q ++ p ∧ p.Nodup ∧
      (∀ w, w ∈ p ↔ 0 < l.count w ∧ indeg.getD w 0 = l.count w) := by
  induction l with
  | nil =>
    intro indeg q _
    refine ⟨rfl, by simp, [], by simp, List.nodup_nil, by simp⟩
  | cons x t ih =>
    intro indeg q hunder
    have hcx : 0 < (x :: t).count x := by
      simp [List.count_cons_self]
    have hx1 : 1 ≤ indeg.getD x 0 := le_trans hcx (hunder x)
    have hxlen : x < indeg.length := by
      by_contra hge
      push_neg at hge
      rw [List.getD_eq_default _ _ hge] at hx1
      omega
    have hstep : (x :: t).foldl kahnRelax (indeg, q) =
        t.foldl kahnRelax
          (indeg.set x (indeg.getD x 0 - 1),
            if indeg.getD x 0 - 1 = 0 then q ++ [x] else q) := by
      rfl
    set indeg1 := indeg.set x (indeg.getD x 0 - 1) with hindeg1
    have hself : indeg1.getD x 0 = indeg.getD x 0 - 1 :=
      getD_set_self indeg x _ hxlen
    have hother : ∀ w, w ≠ x → indeg1.getD w 0 = indeg.getD w 0 := by
      intro w hw
      exact getD_set_ne indeg x w _ (fun hxw => hw hxw.symm)
    have hcount : ∀ w, (x :: t).count w =
        t.count w + if w = x then 1 else 0 := by
      intro w
      by_cases hw : w = x
      · rw [hw, if_pos rfl, List.count_cons_self]
      · rw [if_neg hw, List.count_cons]
        simp [hw]
        intro h
        exact absurd h.symm hw
    have hunder1 : ∀ w, t.count w ≤ indeg1.getD w 0 := by
      intro w
      have hc := hunder w
      rw [hcount w] at hc
      by_cases hw : w = x
      · rw [hw, hself]
        rw [if_pos hw] at hc
        rw [hw] at hc
        omega
      · rw [hother w hw]
        rw [if_neg hw] at hc
        omega
    by_cases hd : indeg.getD x 0 - 1 = 0
    · -- the decrement reached zero: x is pushed
      obtain ⟨hlen2, heq2, p2, hq2, hnd2, hmem2⟩ :=
        ih indeg1 (q ++ [x]) hunder1
      rw [hstep, if_pos hd]
      have hx_not_p2 : x ∉ p2 := by
        intro hx
        obtain ⟨hpos, hval⟩ := (hmem2 x).mp hx
        rw [hself] at hval
        omega
      refine ⟨by rw [hlen2, hindeg1, List.length_set], ?_, x :: p2, ?_, ?_,
        ?_⟩
      · intro w
        rw [heq2 w, hcount w]
        by_cases hw : w = x
        · subst hw
          rw [hself, if_pos rfl]
          omega
        · rw [hother w hw, if_neg hw, Nat.add_zero]
      · rw [hq2]
        simp
      · exact List.nodup_cons.mpr ⟨hx_not_p2, hnd2⟩
      · intro w
        by_cases hw : w = x
        · subst hw
          have htc : t.count w = 0 := by
            have := hunder1 w
            rw [hself] at this
            omega
          constructor
          · intro _
            rw [hcount w, if_pos rfl, htc]
            omega
          · intro _
            exact List.mem_cons_self w p2
        · rw [List.mem_cons]
          simp only [hw, false_or]
          rw [hmem2 w, hother w hw, hcount w, if_neg hw]
          omega
    · -- the decrement left a positive indegree: nothing pushed here
      obtain ⟨hlen2, heq2, p2, hq2, hnd2, hmem2⟩ := ih indeg1 q hunder1
      rw [hstep, if_neg hd]
      refine ⟨by rw [hlen2, hindeg1, List.length_set], ?_, p2, hq2, hnd2,
        ?_⟩
      · intro w
        rw [heq2 w, hcount w]
        by_cases hw : w = x
        · subst hw
          rw [hself, if_pos rfl]
          omega
        · rw [hother w hw, if_neg hw, Nat.add_zero]
      · intro w
        by_cases hw : w = x
        · subst hw
          rw [hmem2 w, hself, hcount w, if_pos rfl]
          omega
        · rw [hmem2 w, hother w hw, hcount w, if_neg hw]
          omega

/-- Folding one adjacency row into the indegree accumulator bumps each slot
by its multiplicity in the row. -/
theorem bump_fold (l : List Nat) : ∀ acc : List Nat,
    (∀ x ∈ l, x < acc.length) →
    ((l.foldl (fun acc2 w => acc2.set w (acc2.getD w 0 + 1)) acc).length =
      acc.length) ∧
    (∀ w, (l.foldl (fun acc2 w => acc2.set w (acc2.getD w 0 + 1)) acc).getD
        w 0 =
      acc.getD w 0 + l.count w) := by
  induction l with
  | nil => intro acc _; exact ⟨rfl, by simp⟩
  | cons x t ih =>
    intro acc hbound
    have hxlen : x < acc.length := hbound x (List.mem_cons_self x t)
    have hbound1 : ∀ y ∈ t, y < (acc.set x (acc.getD x 0 + 1)).length := by
      intro y hy
      rw [List.length_set]
      exact hbound y (List.mem_cons_of_mem _ hy)
    obtain ⟨hlen2, heq2⟩ := ih (acc.set x (acc.getD x 0 + 1)) hbound1
    constructor
    · show (t.foldl _ (acc.set x (acc.getD x 0 + 1))).length = acc.length
      rw [hlen2, List.length_set]
    · intro w
      show (t.foldl _ (acc.set x (acc.getD x 0 + 1))).getD w 0 = _
      rw [heq2 w]
      by_cases hw : w = x
      · subst hw
        rw [getD_set_self acc w _ hxlen, List.count_cons_self]
        omega
      · rw [getD_set_ne acc x w _ (fun h => hw h.symm), List.count_cons,
          if_neg (by simp [hw]; intro h; exact absurd h.symm hw)]
        omega

/-- Folding all rows accumulates every multiplicity. -/
theorem rows_fold (rows : List (List Nat)) : ∀ acc : List Nat,
    (∀ r ∈ rows, ∀ x ∈ r, x < acc.length) →
    ((rows.foldl
        (fun acc2 l => l.foldl
          (fun acc3 w => acc3.set w (acc3.getD w 0 + 1)) acc2) acc).length =
      acc.length) ∧
    (∀ w, (rows.foldl
        (fun acc2 l => l.foldl
          (fun acc3 w => acc3.set w (acc3.getD w 0 + 1)) acc2) acc).getD
        w 0 =
      acc.getD w 0 + ((rows.map fun r => r.count w).sum)) := by
  induction rows with
  | nil => intro acc _; exact ⟨rfl, by simp⟩
  | cons r T ih =>
    intro acc hbound
    obtain ⟨hlen1, heq1⟩ := bump_fold r acc
      (hbound r (List.mem_cons_self r T))
    obtain ⟨hlen2, heq2⟩ := ih
      (r.foldl (fun acc3 w => acc3.set w (acc3.getD w 0 + 1)) acc)
      (by
        intro r2 hr2 x hx
        rw [hlen1]
        exact hbound r2 (List.mem_cons_of_mem _ hr2) x hx)
    refine ⟨by rw [List.foldl_cons, hlen2, hlen1], ?_⟩
    intro w
    rw [List.foldl_cons, heq2 w, heq1 w]
    simp [Nat.add_assoc]

/-- The summed multiplicities over index order equal the summed
multiplicities over the rows themselves. -/
theorem range_getD_sum (L : List (List Nat)) (w : Nat) :
    ((List.range L.length).map fun u => (L.getD u []).count w).sum =
      (L.map fun r => r.count w).sum := by
  induction L with
  | nil => simp
  | cons r T ih =>
    show ((List.range (T.length + 1)).map fun u =>
        ((r :: T).getD u []).count w).sum = _
    rw [List.range_succ_eq_map, List.map_cons, List.map_map]
    have : ((List.range T.length).map
        ((fun u => ((r :: T).getD u []).count w) ∘ Nat.succ)) =
        (List.range T.length).map fun u => (T.getD u []).count w := by
      apply List.map_congr_left
      intro u _
      rfl
    rw [this]
    simp only [List.sum_cons, ih]
    rfl

/-- `computeIndeg` computes the remaining indegree of the empty order. -/
theorem computeIndeg_spec (n : Nat) (adj : List (List Nat))
    (hwf : AdjWF n adj) (hlen : adj.length = n) :
    (computeIndeg n adj).length = n ∧
    ∀ w, (computeIndeg n adj).getD w 0 = remIndeg n adj [] w := by
  have hbound : ∀ r ∈ adj, ∀ x ∈ r, x < (List.replicate n 0).length := by
    intro r hr x hx
    rw [List.length_replicate]
    obtain ⟨u, hu⟩ := List.mem_iff_getElem.mp hr
    obtain ⟨hul, hget⟩ := hu
    have : r = adj.getD u [] := by
      rw [List.getD_eq_getElem?_getD, List.getElem?_eq_getElem hul, hget]
      rfl
    exact hwf u x (this ▸ hx)
  obtain ⟨hlenf, heqf⟩ := rows_fold adj (List.replicate n 0) hbound
  refine ⟨by rw [computeIndeg, hlenf, List.length_replicate], ?_⟩
  intro w
  show (adj.foldl _ (List.replicate n 0)).getD w 0 = _
  rw [heqf w]
  unfold remIndeg
  have hrepl : (List.replicate n 0).getD w 0 = 0 := by
    rw [List.getD_eq_getElem?_getD]
    by_cases hw : w < n
    · rw [List.getElem?_replicate, if_pos hw]
      rfl
    · rw [List.getElem?_eq_none (by simpa using hw)]
      rfl
  rw [hrepl, Nat.zero_add]
  have hsimp : ((List.range n).map fun u =>
      if u ∈ ([] : List Nat) then 0 else (adj.getD u []).count w) =
      (List.range n).map fun u => (adj.getD u []).count w := by
    apply List.map_congr_left
    intro u _
    simp
  rw [hsimp, ← hlen, range_getD_sum]

/-- A predecessor of a node with exhausted remaining indegree was already
emitted. -/
theorem pred_in_order_of_remIndeg_zero (n : Nat) (adj : List (List Nat))
    (order : List Nat) (w u : Nat) (hrem : remIndeg n adj order w = 0)
    (hun : u < n) (he : EdgeTo adj u w) : u ∈ order := by
  by_contra huo
  have hc : 0 < (adj.getD u []).count w := List.count_pos_iff.mpr he
  have := count_le_remIndeg n adj order u w hun huo
  omega

/-- The Kahn loop, run with enough fuel from an invariant state, emits an
extension of `order` that is duplicate-free, in-range, sound for every edge
and closed under zero remaining indegree. -/
theorem kahnLoop_spec (n : Nat) (adj : List (List Nat))
    (hwf : AdjWF n adj) : ∀ (fuel : Nat) (indeg q order : List Nat),
    KahnInv n adj indeg q order →
    n + 1 ≤ fuel + order.length →
    ∃ t, kahnLoop fuel indeg q adj order = order ++ t ∧
      (order ++ t).Nodup ∧ (∀ x ∈ order ++ t, x < n) ∧
      (∀ w ∈ order ++ t, ∀ u, u < n → EdgeTo adj u w →
        u ∈ order ++ t ∧
          (order ++ t).indexOf u < (order ++ t).indexOf w) ∧
      (∀ w, w < n → remIndeg n adj (order ++ t) w = 0 → w ∈ order ++ t) := by
  intro fuel
  induction fuel with
  | zero =>
    intro indeg q order inv hfuel
    exfalso
    have hord_nd : order.Nodup := (List.nodup_append.mp inv.nodup).1
    have hord_lt : ∀ x ∈ order, x < n := fun x hx =>
      inv.bound x (List.mem_append.mpr (Or.inl hx))
    have := nodup_length_le order n hord_nd hord_lt
    omega
  | succ fuel ih =>
    intro indeg q order inv hfuel
    match q with
    | [] =>
      refine ⟨[], by simp [kahnLoop], ?_, ?_, ?_, ?_⟩
      · simpa using inv.nodup
      · intro x hx
        exact inv.bound x hx
      · intro w hw u hun he
        simpa using inv.sound w (by simpa using hw) u hun he
      · intro w hwn hrem
        rcases inv.complete w hwn (by simpa using hrem) with h | h
        · simpa using h
        · simp at h
    | u :: rest =>
      have hnd := inv.nodup
      rw [List.nodup_append] at hnd
      obtain ⟨hord_nd, hurest_nd, hdisj⟩ := hnd
      have hu_no : u ∉ order := fun h =>
        hdisj h (List.mem_cons_self u rest)
      have hu_lt : u < n :=
        inv.bound u (List.mem_append.mpr (Or.inr (List.mem_cons_self u rest)))
      have hrem_u : remIndeg n adj order u = 0 :=
        inv.qZero u (List.mem_cons_self u rest)
      have hunder : ∀ w, (adj.getD u []).count w ≤ indeg.getD w 0 := by
        intro w
        by_cases hwn : w < n
        · rw [inv.indegSpec w hwn]
          exact count_le_remIndeg n adj order u w hu_lt hu_no
        · have : w ∉ adj.getD u [] := fun hmem => hwn (hwf u w hmem)
          rw [List.count_eq_zero.mpr this]
          exact Nat.zero_le _
      obtain ⟨hlen2, heq2, p, hq2, hpnd, hpmem⟩ :=
        kahnRelax_fold (adj.getD u []) indeg rest hunder
      -- facts about freshly pushed nodes
      have hp_lt : ∀ w ∈ p, w < n := by
        intro w hw
        obtain ⟨hpos, -⟩ := (hpmem w).mp hw
        exact hwf u w (List.count_pos_iff.mp hpos)
      have hp_rem : ∀ w ∈ p, remIndeg n adj (order ++ [u]) w = 0 := by
        intro w hw
        obtain ⟨hpos, hval⟩ := (hpmem w).mp hw
        have hwn : w < n := hp_lt w hw
        have := remIndeg_append n adj order u w hu_lt hu_no
        rw [inv.indegSpec w hwn] at hval
        omega
      have hp_fresh : ∀ w ∈ p, w ∉ order ∧ w ≠ u ∧ w ∉ rest := by
        intro w hw
        obtain ⟨hpos, hval⟩ := (hpmem w).mp hw
        have hwn : w < n := hp_lt w hw
        have he : EdgeTo adj u w := List.count_pos_iff.mp hpos
        rw [inv.indegSpec w hwn] at hval
        refine ⟨?_, ?_, ?_⟩
        · intro hwo
          exact hu_no (inv.sound w hwo u hu_lt he).1
        · intro hwu
          subst hwu
          omega
        · intro hwr
          have := inv.qZero w (List.mem_cons_of_mem u hwr)
          omega
      have hremd : ∀ w, w < n → remIndeg n adj order w =
          remIndeg n adj (order ++ [u]) w + (adj.getD u []).count w :=
        fun w _ => remIndeg_append n adj order u w hu_lt hu_no
      -- the new invariant
      have inv2 : KahnInv n adj
          ((adj.getD u []).foldl kahnRelax (indeg, rest)).1
          ((adj.getD u []).foldl kahnRelax (indeg, rest)).2
          (order ++ [u]) := by
        refine ⟨?_, ?_, ?_, ?_, ?_, ?_, ?_⟩
        · -- nodup of (order ++ [u]) ++ (rest ++ p)
          rw [hq2, List.append_assoc, List.singleton_append]
          rw [List.nodup_append]
          refine ⟨hord_nd, ?_, ?_⟩
          · rw [List.nodup_cons]
            rw [List.nodup_cons] at hurest_nd
            constructor
            · intro hmem
              rcases List.mem_append.mp hmem with h | h
              · exact hurest_nd.1 h
              · exact (hp_fresh u h).2.1 rfl
            · rw [List.nodup_append]
              refine ⟨hurest_nd.2, hpnd, ?_⟩
              intro a ha hap
              exact (hp_fresh a hap).2.2 ha
          · intro a ha hmem
            rcases List.mem_cons.mp hmem with rfl | h
            · exact hu_no ha
            · rcases List.mem_append.mp h with h2 | h2
              · exact hdisj ha (List.mem_cons_of_mem u h2)
              · exact (hp_fresh a h2).1 ha
        · -- bounds
          intro x hx
          rcases List.mem_append.mp hx with h | h
          · rcases List.mem_append.mp h with h2 | h2
            · exact inv.bound x (List.mem_append.mpr (Or.inl h2))
            · rw [List.mem_singleton.mp h2]
              exact hu_lt
          · rw [hq2] at h
            rcases List.mem_append.mp h with h2 | h2
            · exact inv.bound x
                (List.mem_append.mpr (Or.inr (List.mem_cons_of_mem u h2)))
            · exact hp_lt x h2
        · rw [hlen2]
          exact inv.indegLen
        · intro w hwn
          rw [heq2 w, inv.indegSpec w hwn]
          have := hremd w hwn
          omega
        · intro w hw
          rw [hq2] at hw
          rcases List.mem_append.mp hw with h | h
          · have h0 := inv.qZero w (List.mem_cons_of_mem u h)
            have hwn : w < n :=
              inv.bound w (List.mem_append.mpr
                (Or.inr (List.mem_cons_of_mem u h)))
            have := hremd w hwn
            omega
          · exact hp_rem w h
        · intro w hw v hvn he
          rcases List.mem_append.mp hw with h | h
          · obtain ⟨hv_in, hv_idx⟩ := inv.sound w h v hvn he
            refine ⟨List.mem_append.mpr (Or.inl hv_in), ?_⟩
            rw [List.indexOf_append_of_mem hv_in,
              List.indexOf_append_of_mem h]
            exact hv_idx
          · rw [List.mem_singleton.mp h]
            rw [List.mem_singleton.mp h] at he
            have hv_in : v ∈ order :=
              pred_in_order_of_remIndeg_zero n adj order u v hrem_u hvn he
            refine ⟨List.mem_append.mpr (Or.inl hv_in), ?_⟩
            rw [List.indexOf_append_of_mem hv_in,
              List.indexOf_append_of_not_mem hu_no, List.indexOf_cons_self]
            have := List.indexOf_lt_length.mpr hv_in
            omega
        · intro w hwn hrem2
          by_cases h0 : remIndeg n adj order w = 0
          · rcases inv.complete w hwn h0 with h | h
            · exact Or.inl (List.mem_append.mpr (Or.inl h))
            · rcases List.mem_cons.mp h with rfl | h2
              · exact Or.inl (List.mem_append.mpr
                  (Or.inr (List.mem_singleton.mpr rfl)))
              · right
                rw [hq2]
                exact List.mem_append.mpr (Or.inl h2)
          · right
            rw [hq2]
            refine List.mem_append.mpr (Or.inr ((hpmem w).mpr ?_))
            have := hremd w hwn
            rw [inv.indegSpec w hwn]
            omega
      have hbody : kahnLoop (fuel + 1) indeg (u :: rest) adj order =
          kahnLoop fuel
            ((adj.getD u []).foldl kahnRelax (indeg, rest)).1
            ((adj.getD u []).foldl kahnRelax (indeg, rest)).2
            adj (order ++ [u]) := rfl
      obtain ⟨t2, hrun, hnd2, hlt2, hsound2, hcomp2⟩ :=
        ih _ _ (order ++ [u]) inv2
          (by rw [List.length_append, List.length_singleton]; omega)
      refine ⟨[u] ++ t2, ?_, ?_, ?_, ?_, ?_⟩
      · rw [hbody, hrun, List.append_assoc]
      · rw [← List.append_assoc]
        exact hnd2
      · rw [← List.append_assoc]
        exact hlt2
      · rw [← List.append_assoc]
        exact hsound2
      · rw [← List.append_assoc]
        exact hcomp2

/-- The emitted Kahn order is duplicate-free, in-range, places every
predecessor strictly before its successor, and contains every node whose
remaining indegree it exhausts. -/
theorem kahnOrder_spec (n : Nat) (adj : List (List Nat))
    (hwf : AdjWF n adj) (hlen : adj.length = n) :
    (kahnOrder n adj).Nodup ∧ (∀ x ∈ kahnOrder n adj, x < n) ∧
    (∀ w ∈ kahnOrder n adj, ∀ u, u < n → EdgeTo adj u w →
      u ∈ kahnOrder n adj ∧
        (kahnOrder n adj).indexOf u < (kahnOrder n adj).indexOf w) ∧
    (∀ w, w < n → remIndeg n adj (kahnOrder n adj) w = 0 →
      w ∈ kahnOrder n adj) := by
  obtain ⟨hclen, hcval⟩ := computeIndeg_spec n adj hwf hlen
  have inv0 : KahnInv n adj (computeIndeg n adj)
      ((List.range n).filter fun i => (computeIndeg n adj).getD i 0 = 0)
      [] := by
    refine ⟨?_, ?_, hclen, ?_, ?_, ?_, ?_⟩
    · simpa using (List.nodup_range n).filter _
    · intro x hx
      rw [List.nil_append] at hx
      exact List.mem_range.mp (List.mem_of_mem_filter hx)
    · intro w _
      exact hcval w
    · intro w hw
      have := List.of_mem_filter hw
      simp only [decide_eq_true_eq] at this
      rw [← hcval w]
      exact this
    · intro w hw
      simp at hw
    · intro w hwn hrem
      right
      refine List.mem_filter.mpr ⟨List.mem_range.mpr hwn, ?_⟩
      simp only [decide_eq_true_eq]
      rw [hcval w]
      exact hrem
  obtain ⟨t, hrun, hnd, hlt, hsound, hcomp⟩ :=
    kahnLoop_spec n adj hwf (n + 1) (computeIndeg n adj)
      ((List.range n).filter fun i => (computeIndeg n adj).getD i 0 = 0)
      [] inv0 (by simp)
  have horder : kahnOrder n adj = t := by
    unfold kahnOrder
    simpa using hrun
  rw [horder]
  simp only [List.nil_append] at hnd hlt hsound hcomp
  exact ⟨hnd, hlt, hsound, hcomp⟩

/-! ## DFS machinery -/

/-- At most `n` nodes are unvisited. -/
theorem whiteCount_le (n : Nat) (st : DfsState) : whiteCount n st ≤ n := by
  unfold whiteCount
  calc ((Finset.range n).filter fun u => st.White u).card ≤
      (Finset.range n).card := Finset.card_filter_le _ _
    _ = n := Finset.card_range n

/-- A white node below `n` keeps the white count positive. -/
theorem whiteCount_pos (n : Nat) (st : DfsState) (u : Nat)
    (hu : st.White u) (hun : u < n) : 0 < whiteCount n st := by
  unfold whiteCount
  refine Finset.card_pos.mpr ⟨u, ?_⟩
  exact Finset.mem_filter.mpr ⟨Finset.mem_range.mpr hun, hu⟩

/-- Painting monotonicity gives white-count monotonicity. -/
theorem whiteCount_mono (n : Nat) (st st2 : DfsState)
    (h : ∀ x, st2.White x → st.White x) :
    whiteCount n st2 ≤ whiteCount n st := by
  unfold whiteCount
  apply Finset.card_le_card
  intro x hx
  obtain ⟨hr, hw⟩ := Finset.mem_filter.mp hx
  exact Finset.mem_filter.mpr ⟨hr, h x hw⟩

/-- Losing one white node strictly decreases the white count. -/
theorem whiteCount_strict (n : Nat) (st st2 : DfsState)
    (h : ∀ x, st2.White x → st.White x) (u : Nat) (hu : st.White u)
    (hun : u < n) (hu2 : ¬ st2.White u) :
    whiteCount n st2 < whiteCount n st := by
  unfold whiteCount
  apply Finset.card_lt_card
  constructor
  · intro x hx
    obtain ⟨hr, hw⟩ := Finset.mem_filter.mp hx
    exact Finset.mem_filter.mpr ⟨hr, h x hw⟩
  · intro hsub
    have hu_in : u ∈ (Finset.range n).filter fun x => st.White x :=
      Finset.mem_filter.mpr ⟨Finset.mem_range.mpr hun, hu⟩
    exact hu2 (Finset.mem_filter.mp (hsub hu_in)).2

/-- Specification of the neighbor loop, for any deeper-visit function `go`
satisfying the visit specification below a white-count bound `B`: an error
is a well-formed cycle path; a normal return restores the Gray stack,
extends the finish ranking, paints all listed neighbors Black, and
preserves the invariant. -/
theorem dfsLoopF_spec (n : Nat) (adj : List (List Nat)) (hwf : AdjWF n adj)
    (go : Nat → DfsState → Except (List Nat) DfsState) (B : Nat)
    (hgo : ∀ (u : Nat) (st : DfsState), DfsInv n adj st → st.White u →
      u < n → (∀ p, st.path.getLast? = some p → EdgeTo adj p u) →
      whiteCount n st < B →
      (∀ c, go u st = .error c → CycleProps n adj c) ∧
      (∀ st2, go u st = .ok st2 →
        st2.path = st.path ∧ (∃ t, st2.fin = st.fin ++ t) ∧ u ∈ st2.fin ∧
        DfsInv n adj st2 ∧ (∀ x, st2.White x → st.White x))) :
    ∀ (l : List Nat), ∀ (st : DfsState) (u0 : Nat), DfsInv n adj st →
    st.path.getLast? = some u0 → (∀ v ∈ l, EdgeTo adj u0 v) →
    whiteCount n st < B →
    (∀ c, dfsLoopF adj go l st = .error c → CycleProps n adj c) ∧
    (∀ st2, dfsLoopF adj go l st = .ok st2 →
      st2.path = st.path ∧ (∃ t, st2.fin = st.fin ++ t) ∧
      DfsInv n adj st2 ∧ (∀ x, st2.White x → st.White x) ∧
      (∀ v ∈ l, v ∈ st2.fin)) := by
  intro l
  induction l with
  | nil =>
    intro st u0 hinv hlast htargets hwc
    constructor
    · intro c hc
      rw [dfsLoopF] at hc
      cases hc
    · intro st2 hst2
      rw [dfsLoopF] at hst2
      cases hst2
      exact ⟨rfl, ⟨[], by simp⟩, hinv, fun x hx => hx, by simp⟩
  | cons v vs ihl =>
    intro st u0 hinv hlast htargets hwc
    have hedge_v : EdgeTo adj u0 v := htargets v (List.mem_cons_self v vs)
    have hvn : v < n := hwf u0 v hedge_v
    by_cases hvp : v ∈ st.path
    · -- Gray neighbor: back edge, cycle emitted
      have hdef : dfsLoopF adj go (v :: vs) st =
          .error (st.path.drop (st.path.indexOf v) ++ [v]) := by
        rw [dfsLoopF, if_pos hvp]
      have hcycle : CycleProps n adj
          (st.path.drop (st.path.indexOf v) ++ [v]) := by
        have hi : st.path.indexOf v < st.path.length :=
          List.indexOf_lt_length.mpr hvp
        have hseg : st.path.drop (st.path.indexOf v) =
            st.path[st.path.indexOf v] ::
              st.path.drop (st.path.indexOf v + 1) :=
          List.drop_eq_getElem_cons hi
        have hheadv : st.path[st.path.indexOf v] = v :=
          List.getElem_indexOf hi
        have hsegne : st.path.drop (st.path.indexOf v) ≠ [] := by
          rw [hseg]
          exact List.cons_ne_nil _ _
        have hseglast : (st.path.drop (st.path.indexOf v)).getLast? =
            some u0 := by
          have hsplit := List.take_append_drop (st.path.indexOf v) st.path
          have := hlast
          rw [← hsplit, List.getLast?_append] at this
          rcases hgl : (st.path.drop (st.path.indexOf v)).getLast? with
            _ | z
          · exact absurd hgl (by
              intro h
              exact hsegne (List.getLast?_eq_none_iff.mp h))
          · rw [hgl] at this
            simp only [Option.or_some] at this
            rw [this]
        refine ⟨?_, ?_, ?_, ?_, ?_⟩
        · rw [List.length_append, List.length_singleton,
            List.length_drop]
          omega
        · rw [List.getLast?_concat]
          rw [List.head?_append]
          rw [hseg, List.head?_cons, hheadv]
          rfl
        · rw [List.dropLast_concat]
          exact hinv.pathNodup.sublist (List.drop_sublist _ _)
        · rw [List.chain'_append]
          refine ⟨hinv.chain.drop _, List.chain'_singleton v, ?_⟩
          intro x hx y hy
          rw [List.head?_cons, Option.mem_some_iff] at hy
          rw [hseglast, Option.mem_some_iff] at hx
          rw [← hy, ← hx]
          exact hedge_v
        · intro x hx
          rcases List.mem_append.mp hx with h | h
          · exact hinv.pathLt x (List.mem_of_mem_drop h)
          · rw [List.mem_singleton.mp h]
            exact hvn
      constructor
      · intro c hc
        rw [hdef] at hc
        cases hc
        exact hcycle
      · intro st2 hst2
        rw [hdef] at hst2
        cases hst2
    · by_cases hvf : v ∈ st.fin
      · -- Black neighbor: skip
        have hdef : dfsLoopF adj go (v :: vs) st =
            dfsLoopF adj go vs st := by
          rw [dfsLoopF, if_neg hvp, if_pos hvf]
        obtain ⟨herr2, hok2⟩ := ihl st u0 hinv hlast
          (fun w hw => htargets w (List.mem_cons_of_mem v hw)) hwc
        constructor
        · intro c hc
          rw [hdef] at hc
          exact herr2 c hc
        · intro st2 hst2
          rw [hdef] at hst2
          obtain ⟨hp, hf, hi2, hm, hall⟩ := hok2 st2 hst2
          refine ⟨hp, hf, hi2, hm, ?_⟩
          intro w hw
          rcases List.mem_cons.mp hw with rfl | hw2
          · obtain ⟨tf, htf⟩ := hf
            rw [htf]
            exact List.mem_append.mpr (Or.inl hvf)
          · exact hall w hw2
      · -- White neighbor: recurse
        have hvwhite : st.White v := ⟨hvp, hvf⟩
        have hdef : dfsLoopF adj go (v :: vs) st =
            match go v st with
            | .error c => .error c
            | .ok st2 => dfsLoopF adj go vs st2 := by
          rw [dfsLoopF, if_neg hvp, if_neg hvf]
        have hext_v : ∀ p, st.path.getLast? = some p → EdgeTo adj p v := by
          intro p hp
          rw [hlast] at hp
          cases hp
          exact hedge_v
        obtain ⟨herrG, hokG⟩ := hgo v st hinv hvwhite hvn hext_v hwc
        cases hres : go v st with
        | error c =>
          rw [hres] at hdef
          constructor
          · intro c2 hc2
            rw [hdef] at hc2
            cases hc2
            exact herrG c hres
          · intro st2 hst2
            rw [hdef] at hst2
            cases hst2
        | ok stG =>
          rw [hres] at hdef
          obtain ⟨hpathG, ⟨tg, hfinG⟩, hvfinG, hinvG, hmonoG⟩ :=
            hokG stG hres
          have hlastG : stG.path.getLast? = some u0 := by
            rw [hpathG]
            exact hlast
          have hwcG : whiteCount n stG < B :=
            lt_of_le_of_lt (whiteCount_mono n st stG hmonoG) hwc
          obtain ⟨herr2, hok2⟩ := ihl stG u0 hinvG hlastG
            (fun w hw => htargets w (List.mem_cons_of_mem v hw)) hwcG
          constructor
          · intro c hc
            rw [hdef] at hc
            exact herr2 c hc
          · intro st2 hst2
            rw [hdef] at hst2
            obtain ⟨hp, ⟨t2, ht2⟩, hi2, hm, hall⟩ := hok2 st2 hst2
            refine ⟨hp.trans hpathG,
              ⟨tg ++ t2, by rw [ht2, hfinG, List.append_assoc]⟩, hi2,
              ?_, ?_⟩
            · intro x hx
              exact hmonoG x (hm x hx)
            · intro w hw
              rcases List.mem_cons.mp hw with rfl | hw2
              · rw [ht2]
                exact List.mem_append.mpr (Or.inl hvfinG)
              · exact hall w hw2

/-- Specification of `dfsGo` with sufficient fuel: an error is a
well-formed cycle path; a normal return restores the Gray stack, extends
the finish ranking, paints the visited node Black, and preserves the
invariant. -/
theorem dfs_spec (n : Nat) (adj : List (List Nat)) (hwf : AdjWF n adj) :
    ∀ fuel : Nat,
    ∀ (u : Nat) (st : DfsState), DfsInv n adj st → st.White u → u < n →
    (∀ p, st.path.getLast? = some p → EdgeTo adj p u) →
    whiteCount n st < fuel →
    (∀ c, dfsGo adj fuel u st = .error c → CycleProps n adj c) ∧
    (∀ st2, dfsGo adj fuel u st = .ok st2 →
      st2.path = st.path ∧ (∃ t, st2.fin = st.fin ++ t) ∧ u ∈ st2.fin ∧
      DfsInv n adj st2 ∧ (∀ x, st2.White x → st.White x)) := by
  intro fuel
  induction fuel with
  | zero =>
    intro u st _ _ _ _ hwc
    exact absurd hwc (Nat.not_lt_zero _)
  | succ fuel ihGo =>
    intro u st hinv hwhite hun hext hwc
    set st1 : DfsState := ⟨st.path ++ [u], st.fin⟩ with hst1
    have hinv1 : DfsInv n adj st1 := by
      refine ⟨?_, hinv.finNodup, ?_, ?_, hinv.finLt, ?_, hinv.rank⟩
      · rw [List.nodup_append]
        refine ⟨hinv.pathNodup, List.nodup_singleton u, ?_⟩
        intro a ha hmem
        rw [List.mem_singleton.mp hmem] at ha
        exact hwhite.1 ha
      · intro x hx
        rcases List.mem_append.mp hx with h | h
        · exact hinv.disj x h
        · rw [List.mem_singleton.mp h]
          exact hwhite.2
      · intro x hx
        rcases List.mem_append.mp hx with h | h
        · exact hinv.pathLt x h
        · rw [List.mem_singleton.mp h]
          exact hun
      · rw [List.chain'_append]
        refine ⟨hinv.chain, List.chain'_singleton u, ?_⟩
        intro x hx y hy
        rw [List.head?_cons, Option.mem_some_iff] at hy
        rw [← hy]
        exact hext x hx
    have hmono1 : ∀ x, st1.White x → st.White x := by
      intro x hx
      obtain ⟨hxp, hxf⟩ := hx
      rw [hst1] at hxp hxf
      simp only [List.mem_append] at hxp
      exact ⟨fun h => hxp (Or.inl h), hxf⟩
    have hnotwhite1 : ¬ st1.White u := by
      intro hw
      exact hw.1 (List.mem_append.mpr (Or.inr (List.mem_singleton.mpr rfl)))
    have hdrop : whiteCount n st1 < whiteCount n st :=
      whiteCount_strict n st st1 hmono1 u hwhite hun hnotwhite1
    have hwc1 : whiteCount n st1 < fuel := by omega
    have hlast1 : st1.path.getLast? = some u := List.getLast?_concat _
    have htargets1 : ∀ v ∈ adj.getD u [], EdgeTo adj u v := fun v hv => hv
    obtain ⟨herrL, hokL⟩ := dfsLoopF_spec n adj hwf (dfsGo adj fuel) fuel
      ihGo (adj.getD u []) st1 u hinv1 hlast1 htargets1 hwc1
    have hdef : dfsGo adj (fuel + 1) u st =
        match dfsLoopF adj (dfsGo adj fuel) (adj.getD u []) st1 with
        | .error c => .error c
        | .ok st2 => .ok ⟨st2.path.dropLast, st2.fin ++ [u]⟩ := by
      rw [dfsGo]
    cases hres : dfsLoopF adj (dfsGo adj fuel) (adj.getD u []) st1 with
    | error c =>
      rw [hres] at hdef
      constructor
      · intro c2 hc2
        rw [hdef] at hc2
        cases hc2
        exact herrL c hres
      · intro st2 hst2
        rw [hdef] at hst2
        cases hst2
    | ok stL =>
      rw [hres] at hdef
      obtain ⟨hpathL, ⟨tf, hfinL⟩, hinvL, hmonoL, hallfin⟩ := hokL stL hres
      constructor
      · intro c hc
        rw [hdef] at hc
        cases hc
      · intro st2 hst2
        rw [hdef] at hst2
        cases hst2
        have hpath2 : stL.path.dropLast = st.path := by
          rw [hpathL, hst1]
          exact List.dropLast_concat
        have hu_pathL : u ∈ stL.path := by
          rw [hpathL, hst1]
          exact List.mem_append.mpr (Or.inr (List.mem_singleton.mpr rfl))
        have hu_notfinL : u ∉ stL.fin := hinvL.disj u hu_pathL
        refine ⟨hpath2, ⟨tf ++ [u], by rw [hfinL, List.append_assoc]⟩,
          List.mem_append.mpr (Or.inr (List.mem_singleton.mpr rfl)),
          ?_, ?_⟩
        · refine ⟨?_, ?_, ?_, ?_, ?_, ?_, ?_⟩
          · rw [hpath2]
            exact hinv.pathNodup
          · rw [List.nodup_append]
            exact ⟨hinvL.finNodup, List.nodup_singleton u,
              fun a ha hmem => hu_notfinL
                ((List.mem_singleton.mp hmem) ▸ ha)⟩
          · intro x hx
            rw [hpath2] at hx
            intro hmem
            rcases List.mem_append.mp hmem with h | h
            · exact hinvL.disj x (by
                rw [hpathL, hst1]
                exact List.mem_append.mpr (Or.inl hx)) h
            · rw [List.mem_singleton.mp h] at hx
              exact hwhite.1 hx
          · intro x hx
            rw [hpath2] at hx
            exact hinv.pathLt x hx
          · intro x hx
            rcases List.mem_append.mp hx with h | h
            · exact hinvL.finLt x h
            · rw [List.mem_singleton.mp h]
              exact hun
          · show List.Chain' (EdgeTo adj) stL.path.dropLast
            rw [hpath2]
            exact hinv.chain
          · intro v hv w he
            rcases List.mem_append.mp hv with h | h
            · obtain ⟨hw_in, hw_idx⟩ := hinvL.rank v h w he
              refine ⟨List.mem_append.mpr (Or.inl hw_in), ?_⟩
              rw [List.indexOf_append_of_mem hw_in,
                List.indexOf_append_of_mem h]
              exact hw_idx
            · rw [List.mem_singleton.mp h] at he ⊢
              have hw_in : w ∈ stL.fin := hallfin w he
              refine ⟨List.mem_append.mpr (Or.inl hw_in), ?_⟩
              rw [List.indexOf_append_of_mem hw_in,
                List.indexOf_append_of_not_mem hu_notfinL,
                List.indexOf_cons_self]
              have := List.indexOf_lt_length.mpr hw_in
              omega
        · intro x hx
          obtain ⟨hxp, hxf⟩ := hx
          simp only [hpath2] at hxp
          simp only [List.mem_append, List.mem_singleton] at hxf
          push_neg at hxf
          have hxw : stL.White x := by
            refine ⟨?_, hxf.1⟩
            rw [hpathL, hst1]
            intro hmem
            rcases List.mem_append.mp hmem with h | h
            · exact hxp h
            · exact hxf.2 (List.mem_singleton.mp h)
          exact hmono1 x (hmonoL x hxw)

/-- The root loop: a `some` result is a well-formed cycle; a `none` result
leaves every root finished in a final ranking state. -/
theorem detectAux_spec (n : Nat) (adj : List (List Nat))
    (hwf : AdjWF n adj) : ∀ (roots : List Nat) (st : DfsState),
    DfsInv n adj st → st.path = [] → (∀ i ∈ roots, i < n) →
    (∀ c, detectAux adj n roots st = some c → CycleProps n adj c) ∧
    (detectAux adj n roots st = none →
      ∃ st2, DfsInv n adj st2 ∧ st2.path = [] ∧
        (∃ t, st2.fin = st.fin ++ t) ∧ (∀ i ∈ roots, i ∈ st2.fin)) := by
  intro roots
  induction roots with
  | nil =>
    intro st hinv hpath _
    refine ⟨?_, ?_⟩
    · intro c hc
      rw [detectAux] at hc
      cases hc
    · intro _
      exact ⟨st, hinv, hpath, ⟨[], by simp⟩, by simp⟩
  | cons i is ihr =>
    intro st hinv hpath hroots
    have hin : i < n := hroots i (List.mem_cons_self i is)
    by_cases hcol : i ∈ st.path ∨ i ∈ st.fin
    · have hif : i ∈ st.fin := by
        rcases hcol with h | h
        · rw [hpath] at h
          cases h
        · exact h
      have hdef : detectAux adj n (i :: is) st = detectAux adj n is st := by
        rw [detectAux, if_pos hcol]
      obtain ⟨hsome, hnone⟩ := ihr st hinv hpath
        (fun j hj => hroots j (List.mem_cons_of_mem i hj))
      refine ⟨?_, ?_⟩
      · intro c hc
        rw [hdef] at hc
        exact hsome c hc
      · intro hn
        rw [hdef] at hn
        obtain ⟨st2, h1, h2, ⟨t, ht⟩, h4⟩ := hnone hn
        refine ⟨st2, h1, h2, ⟨t, ht⟩, ?_⟩
        intro j hj
        rcases List.mem_cons.mp hj with rfl | hj2
        · rw [ht]
          exact List.mem_append.mpr (Or.inl hif)
        · exact h4 j hj2
    · push_neg at hcol
      have hwhite : st.White i := ⟨hcol.1, hcol.2⟩
      have hext : ∀ p, st.path.getLast? = some p → EdgeTo adj p i := by
        intro p hp
        rw [hpath] at hp
        cases hp
      have hwc : whiteCount n st < n + 1 :=
        lt_of_le_of_lt (whiteCount_le n st) (Nat.lt_succ_self n)
      obtain ⟨herrG, hokG⟩ := dfs_spec n adj hwf (n + 1) i st hinv
        hwhite hin hext hwc
      have hcond : ¬ (i ∈ st.path ∨ i ∈ st.fin) := by
        push_neg
        exact hcol
      cases hres : dfsGo adj (n + 1) i st with
      | error c =>
        have hdef : detectAux adj n (i :: is) st = some c := by
          rw [detectAux, if_neg hcond, hres]
        refine ⟨?_, ?_⟩
        · intro c2 hc2
          rw [hdef] at hc2
          cases hc2
          exact herrG c hres
        · intro hn
          rw [hdef] at hn
          cases hn
      | ok stG =>
        have hdef : detectAux adj n (i :: is) st =
            detectAux adj n is stG := by
          rw [detectAux, if_neg hcond, hres]
        obtain ⟨hpathG, ⟨tg, hfinG⟩, hifinG, hinvG, -⟩ := hokG stG hres
        have hpathG2 : stG.path = [] := by

          rw [hpathG, hpath]
        obtain ⟨hsome, hnone⟩ := ihr stG hinvG hpathG2
          (fun j hj => hroots j (List.mem_cons_of_mem i hj))
        refine ⟨?_, ?_⟩
        · intro c hc
          rw [hdef] at hc
          exact hsome c hc
        · intro hn
          rw [hdef] at hn
          obtain ⟨st2, h1, h2, ⟨t, ht⟩, h4⟩ := hnone hn
          refine ⟨st2, h1, h2, ⟨tg ++ t, by
            rw [ht, hfinG, List.append_assoc]⟩, ?_⟩
          intro j hj
          rcases List.mem_cons.mp hj with rfl | hj2
          · rw [ht]
            exact List.mem_append.mpr (Or.inl hifinG)
          · exact h4 j hj2

/-- A `some` result of cycle detection is a well-formed cycle path. -/
theorem detect_some_cycle (n : Nat) (adj : List (List Nat))
    (hwf : AdjWF n adj) (c : List Nat)
    (hc : detectCycleWithPath n adj = some c) : CycleProps n adj c := by
  have hinv0 : DfsInv n adj ⟨[], []⟩ :=
    ⟨List.nodup_nil, List.nodup_nil,
      fun x hx => (List.not_mem_nil x hx).elim,
      fun x hx => (List.not_mem_nil x hx).elim,
      fun x hx => (List.not_mem_nil x hx).elim,
      List.chain'_nil,
      fun u hu => (List.not_mem_nil u hu).elim⟩
  exact (detectAux_spec n adj hwf (List.range n) ⟨[], []⟩ hinv0 rfl
    (fun i hi => List.mem_range.mp hi)).1 c hc

/-- A `none` result of cycle detection yields a reverse topological ranking
of all nodes. -/
theorem detect_none_ranking (n : Nat) (adj : List (List Nat))
    (hwf : AdjWF n adj) (h : detectCycleWithPath n adj = none) :
    ∃ fin : List Nat, RankOK adj fin ∧ ∀ i, i < n → i ∈ fin := by
  have hinv0 : DfsInv n adj ⟨[], []⟩ :=
    ⟨List.nodup_nil, List.nodup_nil,
      fun x hx => (List.not_mem_nil x hx).elim,
      fun x hx => (List.not_mem_nil x hx).elim,
      fun x hx => (List.not_mem_nil x hx).elim,
      List.chain'_nil,
      fun u hu => (List.not_mem_nil u hu).elim⟩
  obtain ⟨st2, hinv2, -, -, hall⟩ := (detectAux_spec n adj hwf
    (List.range n) ⟨[], []⟩ hinv0 rfl (fun i hi => List.mem_range.mp hi)).2 h
  exact ⟨st2.fin, hinv2.rank, fun i hi => hall i (List.mem_range.mpr hi)⟩

/-- Ranks strictly decrease along a chain of edges. -/
theorem chain_rank_le (adj : List (List Nat)) (fin : List Nat)
    (hrank : RankOK adj fin) : ∀ (l : List Nat) (a : Nat),
    List.Chain' (EdgeTo adj) (a :: l) → a ∈ fin →
    (a :: l).getLast (List.cons_ne_nil a l) ∈ fin ∧
    fin.indexOf ((a :: l).getLast (List.cons_ne_nil a l)) ≤
      fin.indexOf a ∧
    (l ≠ [] →
      fin.indexOf ((a :: l).getLast (List.cons_ne_nil a l)) <
        fin.indexOf a) := by
  intro l
  induction l with
  | nil =>
    intro a _ ha
    exact ⟨ha, le_refl _, fun h => absurd rfl h⟩
  | cons b t iht =>
    intro a hchain ha
    have hedge : EdgeTo adj a b := (List.chain'_cons.mp hchain).1
    have hchain2 : List.Chain' (EdgeTo adj) (b :: t) :=
      (List.chain'_cons.mp hchain).2
    obtain ⟨hb_in, hb_idx⟩ := hrank a ha b hedge
    obtain ⟨hg_in, hg_le, -⟩ := iht b hchain2 hb_in
    have hlast_eq : (a :: b :: t).getLast (List.cons_ne_nil a (b :: t)) =
        (b :: t).getLast (List.cons_ne_nil b t) := by
      rw [List.getLast_cons (List.cons_ne_nil b t)]
    rw [hlast_eq]
    exact ⟨hg_in, by omega, fun _ => by omega⟩

/-- A full reverse topological ranking forbids cycles. -/
theorem ranking_no_idx_cycle (n : Nat) (adj : List (List Nat))
    (fin : List Nat) (hrank : RankOK adj fin)
    (hall : ∀ i, i < n → i ∈ fin) : ¬ HasIdxCycle n adj := by
  rintro ⟨a, l, hbound, hchain, hclose⟩
  have ha : a ∈ fin := hall a (hbound a (List.mem_cons_self a l))
  obtain ⟨hg_in, hg_le, hg_lt⟩ := chain_rank_le adj fin hrank l a hchain ha
  obtain ⟨ha_in2, ha_idx⟩ := hrank _ hg_in a hclose
  cases l with
  | nil =>
    simp only [List.getLast_singleton] at ha_idx
    omega
  | cons b t =>
    have := hg_lt (List.cons_ne_nil b t)
    omega

/-- Whenever the index graph has a cycle, `detect_cycle_with_path` finds
one, and the found path is well-formed. -/
theorem detect_finds_cycle (n : Nat) (adj : List (List Nat))
    (hwf : AdjWF n adj) (hcyc : HasIdxCycle n adj) :
    ∃ c, detectCycleWithPath n adj = some c ∧ CycleProps n adj c := by
  cases hdet : detectCycleWithPath n adj with
  | none =>
    obtain ⟨fin, hrank, hall⟩ := detect_none_ranking n adj hwf hdet
    exact absurd hcyc (ranking_no_idx_cycle n adj fin hrank hall)
  | some c =>
    exact ⟨c, rfl, detect_some_cycle n adj hwf c hdet⟩

/-- Kahn completeness: if the DFS found no cycle, every node is emitted. -/
theorem kahnOrder_complete (n : Nat) (adj : List (List Nat))
    (hwf : AdjWF n adj) (hlen : adj.length = n)
    (hdet : detectCycleWithPath n adj = none) :
    ∀ w, w < n → w ∈ kahnOrder n adj := by
  obtain ⟨fin, hrank, hall⟩ := detect_none_ranking n adj hwf hdet
  obtain ⟨-, -, -, hclosed⟩ := kahnOrder_spec n adj hwf hlen
  by_contra hmiss
  push_neg at hmiss
  obtain ⟨w0, hw0n, hw0⟩ := hmiss
  set S := (List.range n).filter (fun x => decide (x ∉ kahnOrder n adj))
    with hS
  have hw0S : w0 ∈ S := by
    rw [hS]
    exact List.mem_filter.mpr ⟨List.mem_range.mpr hw0n, by
      simpa using hw0⟩
  have hSne : S ≠ [] := List.ne_nil_of_mem hw0S
  obtain ⟨m, hm⟩ : ∃ m, m ∈ S.argmax fun x => fin.indexOf x := by
    cases harg : S.argmax fun x => fin.indexOf x with
    | none => exact absurd (List.argmax_eq_none.mp harg) hSne
    | some m => exact ⟨m, by rw [Option.mem_def]⟩
  have hmS : m ∈ S := List.argmax_mem hm
  have hmdata := List.mem_filter.mp (hS ▸ hmS)
  have hmn : m < n := List.mem_range.mp hmdata.1
  have hmnot : m ∉ kahnOrder n adj := by simpa using hmdata.2
  have hrem : remIndeg n adj (kahnOrder n adj) m ≠ 0 := by
    intro h0
    exact hmnot (hclosed m hmn h0)
  obtain ⟨u, hun, hunot, hedge⟩ :=
    remIndeg_exists_pred n adj (kahnOrder n adj) m hrem
  have huS : u ∈ S := by
    rw [hS]
    exact List.mem_filter.mpr ⟨List.mem_range.mpr hun, by simpa using hunot⟩
  obtain ⟨hm_in, hm_idx⟩ := hrank u (hall u hun) m hedge
  have := List.le_of_mem_argmax huS hm
  omega

/-! ## Adjacency construction -/

/-- Reading back the written slot (generic element type). -/
theorem getD_set_self2 {α : Type} (l : List α) (i : Nat) (v d : α)
    (h : i < l.length) : (l.set i v).getD i d = v := by
  simp [List.getD_eq_getElem?_getD, List.getElem?_set_self h]

/-- Reading another slot (generic element type). -/
theorem getD_set_ne2 {α : Type} (l : List α) (i j : Nat) (v d : α)
    (h : i ≠ j) : (l.set i v).getD j d = l.getD j d := by
  simp [List.getD_eq_getElem?_getD, List.getElem?_set_ne h]

/-- Inversion of one `addDeps` run: on success every dep was known, the
length is kept, and membership in the result rows is membership in the
input rows plus the new `dep → module` edges. -/
theorem addDeps_ok_inv (names : List String) (u : Nat) (nm : String) :
    ∀ (ds : List String) (adj adj2 : List (List Nat)),
    addDeps names u nm ds adj = .ok adj2 →
    adj.length = names.length →
    (∀ d ∈ ds, d ∈ names) ∧ adj2.length = names.length ∧
    (∀ v x, x ∈ adj2.getD v [] ↔ x ∈ adj.getD v [] ∨
      (x = u ∧ ∃ d ∈ ds, v = names.indexOf d)) := by
  intro ds
  induction ds with
  | nil =>
    intro adj adj2 hok hlen
    rw [addDeps] at hok
    cases hok
    exact ⟨by simp, hlen, by simp⟩
  | cons d ds ihd =>
    intro adj adj2 hok hlen
    rw [addDeps] at hok
    by_cases hd : d ∈ names
    · rw [if_pos hd] at hok
      have hidx : names.indexOf d < names.length :=
        List.indexOf_lt_length.mpr hd
      have hidx2 : names.indexOf d < adj.length := by omega
      obtain ⟨hknown, hlen2, hchar⟩ := ihd _ adj2 hok (by
        rw [List.length_set]; exact hlen)
      refine ⟨?_, hlen2, ?_⟩
      · intro d2 hd2
        rcases List.mem_cons.mp hd2 with rfl | h
        · exact hd
        · exact hknown d2 h
      · intro v x
        rw [hchar v x]
        by_cases hv : v = names.indexOf d
        · subst hv
          rw [getD_set_self2 adj _ _ _ hidx2]
          constructor
          · rintro (h | ⟨rfl, d2, hd2, hveq⟩)
            · rcases List.mem_append.mp h with h2 | h2
              · exact Or.inl h2
              · rw [List.mem_singleton.mp h2]
                exact Or.inr ⟨rfl, d, List.mem_cons_self d ds, rfl⟩
            · exact Or.inr ⟨rfl, d2, List.mem_cons_of_mem d hd2, hveq⟩
          · rintro (h | ⟨rfl, d2, hd2, hveq⟩)
            · exact Or.inl (List.mem_append.mpr (Or.inl h))
            · rcases List.mem_cons.mp hd2 with rfl | h2
              · exact Or.inl (List.mem_append.mpr
                  (Or.inr (List.mem_singleton.mpr rfl)))
              · exact Or.inr ⟨rfl, d2, h2, hveq⟩
        · rw [getD_set_ne2 adj _ _ _ _ (fun h => hv h.symm)]
          constructor
          · rintro (h | ⟨rfl, d2, hd2, hveq⟩)
            · exact Or.inl h
            · exact Or.inr ⟨rfl, d2, List.mem_cons_of_mem d hd2, hveq⟩
          · rintro (h | ⟨rfl, d2, hd2, hveq⟩)
            · exact Or.inl h
            · rcases List.mem_cons.mp hd2 with rfl | h2
              · exact absurd hveq.symm (fun h => hv h.symm)
              · exact Or.inr ⟨rfl, d2, h2, hveq⟩
    · rw [if_neg hd] at hok
      cases hok

/-- `addDeps` succeeds when every dep is known. -/
theorem addDeps_ok_of_known (names : List String) (u : Nat) (nm : String) :
    ∀ (ds : List String) (adj : List (List Nat)),
    (∀ d ∈ ds, d ∈ names) →
    ∃ adj2, addDeps names u nm ds adj = .ok adj2 := by
  intro ds
  induction ds with
  | nil =>
    intro adj _
    exact ⟨adj, rfl⟩
  | cons d ds ihd =>
    intro adj hknown
    have hd : d ∈ names := hknown d (List.mem_cons_self d ds)
    obtain ⟨adj2, hok⟩ := ihd
      (adj.set (names.indexOf d) ((adj.getD (names.indexOf d) []) ++ [u]))
      (fun d2 h => hknown d2 (List.mem_cons_of_mem d h))
    exact ⟨adj2, by rw [addDeps, if_pos hd]; exact hok⟩

/-- Inversion of the whole adjacency build. -/
theorem buildAdj_ok_inv (names : List String) :
    ∀ (dl : List (String × List String)) (adj adj2 : List (List Nat)),
    buildAdj names dl adj = .ok adj2 →
    adj.length = names.length →
    (∀ p ∈ dl, p.1 ∈ names ∧ ∀ d ∈ p.2, d ∈ names) ∧
    adj2.length = names.length ∧
    (∀ v x, x ∈ adj2.getD v [] ↔ x ∈ adj.getD v [] ∨
      ∃ p ∈ dl, ∃ d ∈ p.2, x = names.indexOf p.1 ∧ v = names.indexOf d) := by
  intro dl
  induction dl with
  | nil =>
    intro adj adj2 hok hlen
    rw [buildAdj] at hok
    cases hok
    exact ⟨by simp, hlen, by simp⟩
  | cons pr dl ihd =>
    intro adj adj2 hok hlen
    obtain ⟨nm, ds⟩ := pr
    rw [buildAdj] at hok
    by_cases hnm : nm ∈ names
    · rw [if_pos hnm] at hok
      cases hmid : addDeps names (names.indexOf nm) nm ds adj with
      | error e =>
        rw [hmid] at hok
        cases hok
      | ok adjMid =>
        rw [hmid] at hok
        obtain ⟨hknown1, hlen1, hchar1⟩ :=
          addDeps_ok_inv names (names.indexOf nm) nm ds adj adjMid hmid hlen
        obtain ⟨hknown2, hlen2, hchar2⟩ := ihd adjMid adj2 hok hlen1
        refine ⟨?_, hlen2, ?_⟩
        · intro p hp
          rcases List.mem_cons.mp hp with rfl | h
          · exact ⟨hnm, hknown1⟩
          · exact hknown2 p h
        · intro v x
          rw [hchar2 v x, hchar1 v x]
          constructor
          · rintro ((h | ⟨rfl, d, hd, hveq⟩) | ⟨p, hp, d, hd, hxeq, hveq⟩)
            · exact Or.inl h
            · exact Or.inr ⟨(nm, ds), List.mem_cons_self _ _, d, hd, rfl,
                hveq⟩
            · exact Or.inr ⟨p, List.mem_cons_of_mem _ hp, d, hd, hxeq,
                hveq⟩
          · rintro (h | ⟨p, hp, d, hd, hxeq, hveq⟩)
            · exact Or.inl (Or.inl h)
            · rcases List.mem_cons.mp hp with rfl | h2
              · exact Or.inl (Or.inr ⟨hxeq, d, hd, hveq⟩)
              · exact Or.inr ⟨p, h2, d, hd, hxeq, hveq⟩
    · rw [if_neg hnm] at hok
      cases hok

/-- The adjacency build succeeds on fully-known inputs. -/
theorem buildAdj_ok_of_known (names : List String) :
    ∀ (dl : List (String × List String)) (adj : List (List Nat)),
    (∀ p ∈ dl, p.1 ∈ names ∧ ∀ d ∈ p.2, d ∈ names) →
    ∃ adj2, buildAdj names dl adj = .ok adj2 := by
  intro dl
  induction dl with
  | nil =>
    intro adj _
    exact ⟨adj, rfl⟩
  | cons pr dl ihd =>
    intro adj hknown
    obtain ⟨nm, ds⟩ := pr
    have hnm : nm ∈ names := (hknown (nm, ds) (List.mem_cons_self _ _)).1
    obtain ⟨adjMid, hmid⟩ := addDeps_ok_of_known names
      (names.indexOf nm) nm ds adj
      (hknown (nm, ds) (List.mem_cons_self _ _)).2
    obtain ⟨adj2, hok⟩ := ihd adjMid
      (fun p h => hknown p (List.mem_cons_of_mem _ h))
    exact ⟨adj2, by rw [buildAdj, if_pos hnm, hmid]; exact hok⟩

/-! ## Validation and entry construction -/

/-- All-known capability lists pass `unknownOf`. -/
theorem unknownOf_none (core xs : List String)
    (h : ∀ x ∈ xs, x ∈ core) : unknownOf core xs = none := by
  unfold unknownOf
  rw [List.find?_eq_none]
  intro x hx
  simpa using h x hx

/-- A known (or absent) optional holder passes `optUnknown`. -/
theorem optUnknown_none (core : List String) (x : Option String)
    (h : ∀ y, x = some y → y ∈ core) : optUnknown core x = none := by
  cases x with
  | none => rfl
  | some y =>
    show (if y ∈ core then none else some y) = none
    rw [if_pos (h y rfl)]

/-- A builder with no accumulated errors and fully-known capability
references passes all validation steps. -/
theorem validateCaps_none (b : RegistryBuilderM)
    (herr : b.errors = [])
    (hrest : ∀ x ∈ b.rest, x ∈ b.core)
    (hrh : ∀ y, b.restHost = some y → y ∈ b.core)
    (hdb : ∀ x ∈ b.db, x ∈ b.core)
    (hst : ∀ x ∈ b.stateful, x ∈ b.core)
    (hgh : ∀ y, b.grpcHub = some y → y ∈ b.core)
    (hgs : ∀ x ∈ b.grpcServices, x ∈ b.core) :
    validateCaps b = none := by
  unfold validateCaps
  rw [optUnknown_none b.core b.restHost hrh, herr,
    unknownOf_none b.core b.rest hrest, unknownOf_none b.core b.db hdb,
    unknownOf_none b.core b.stateful hst,
    optUnknown_none b.core b.grpcHub hgh,
    unknownOf_none b.core b.grpcServices hgs]

/-- On success, `mkEntries` emits entries named after the order. -/
theorem mkEntries_names (b : RegistryBuilderM) (names : List String) :
    ∀ (order : List Nat) (entries : List ModuleEntryM),
    mkEntries b names order = .ok entries →
    entries.map (fun e => e.name) = order.map fun i => names.getD i "" := by
  intro order
  induction order with
  | nil =>
    intro entries hok
    rw [mkEntries] at hok
    cases hok
    simp
  | cons i is ihe =>
    intro entries hok
    rw [mkEntries] at hok
    cases hme : mkEntry b (names.getD i "") with
    | error e =>
      rw [hme] at hok
      cases hok
    | ok e =>
      rw [hme] at hok
      cases hrest : mkEntries b names is with
      | error e2 =>
        rw [hrest] at hok
        cases hok
      | ok es =>
        rw [hrest] at hok
        cases hok
        have hname : e.name = names.getD i "" := by
          unfold mkEntry at hme
          cases hf : b.deps.find? (fun p => p.1 = names.getD i "") with
          | none =>
            rw [hf] at hme
            cases hme
          | some pr =>
            rw [hf] at hme
            dsimp only at hme
            by_cases hc : names.getD i "" ∈ b.core
            · rw [if_pos hc] at hme
              cases hme
              rfl
            · rw [if_neg hc] at hme
              cases hme
        rw [List.map_cons, List.map_cons, hname, ihe es hrest]

/-- `mkEntry` succeeds for a name registered in `core` and `deps`. -/
theorem mkEntry_ok (b : RegistryBuilderM) (name : String)
    (hc : name ∈ b.core) (hd : ∃ p ∈ b.deps, p.1 = name) :
    ∃ e, mkEntry b name = .ok e ∧ e.name = name := by
  have hfind : (b.deps.find? fun p => p.1 = name).isSome := by
    rw [List.find?_isSome]
    obtain ⟨p, hp, hpeq⟩ := hd
    exact ⟨p, hp, by simpa using hpeq⟩
  cases hf : b.deps.find? (fun p => p.1 = name) with
  | none => rw [hf] at hfind; cases hfind
  | some pr =>
    cases hres : mkEntry b name with
    | error er =>
      exfalso
      rw [mkEntry, hf] at hres
      dsimp only at hres
      rw [if_pos hc] at hres
      cases hres
    | ok e =>
      refine ⟨e, rfl, ?_⟩
      rw [mkEntry, hf] at hres
      dsimp only at hres
      rw [if_pos hc] at hres
      cases hres
      rfl

/-- `mkEntries` succeeds when every listed index names a registered
module. -/
theorem mkEntries_ok (b : RegistryBuilderM) (names : List String) :
    ∀ order : List Nat,
    (∀ i ∈ order, names.getD i "" ∈ b.core ∧
      ∃ p ∈ b.deps, p.1 = names.getD i "") →
    ∃ entries, mkEntries b names order = .ok entries := by
  intro order
  induction order with
  | nil =>
    intro _
    exact ⟨[], rfl⟩
  | cons i is ihe =>
    intro h
    obtain ⟨hc, hd⟩ := h i (List.mem_cons_self i is)
    obtain ⟨e, hme, -⟩ := mkEntry_ok b (names.getD i "") hc hd
    obtain ⟨es, hes⟩ := ihe (fun j hj => h j (List.mem_cons_of_mem i hj))
    exact ⟨e :: es, by rw [mkEntries, hme, hes]⟩

/-- `indexOf` commutes with reading names off a duplicate-free name
vector. -/
theorem indexOf_map_getD (names : List String) (hnd : names.Nodup) :
    ∀ (order : List Nat), (∀ x ∈ order, x < names.length) →
    ∀ i ∈ order,
    (order.map fun j => names.getD j "").indexOf (names.getD i "") =
      order.indexOf i := by
  intro order
  induction order with
  | nil =>
    intro _ i hi
    cases hi
  | cons j js ihj =>
    intro hbound i hi
    have hjlt : j < names.length := hbound j (List.mem_cons_self j js)
    have hilt : i < names.length := hbound i hi
    by_cases hij : j = i
    · subst hij
      rw [List.map_cons, List.indexOf_cons_self, List.indexOf_cons_self]
    · have hne : names.getD j "" ≠ names.getD i "" := by
        intro he
        have hj1 : names.getD j "" = names.get ⟨j, hjlt⟩ := by
          rw [List.getD_eq_getElem?_getD, List.getElem?_eq_getElem hjlt]
          rfl
        have hi1 : names.getD i "" = names.get ⟨i, hilt⟩ := by
          rw [List.getD_eq_getElem?_getD, List.getElem?_eq_getElem hilt]
          rfl
        rw [hj1, hi1] at he
        exact hij (by simpa using hnd.get_inj_iff.mp he)
      have hi2 : i ∈ js := by
        rcases List.mem_cons.mp hi with rfl | h
        · exact absurd rfl hij
        · exact h
      rw [List.map_cons, List.indexOf_cons_ne _ hne,
        List.indexOf_cons_ne _ hij,
        ihj (fun x hx => hbound x (List.mem_cons_of_mem j hx)) i hi2]

/-- Reading the name back from its index. -/
theorem getD_indexOf (names : List String) (d : String) (hd : d ∈ names) :
    names.getD (names.indexOf d) "" = d := by
  have hlt : names.indexOf d < names.length := List.indexOf_lt_length.mpr hd
  rw [List.getD_eq_getElem?_getD, List.getElem?_eq_getElem hlt]
  exact congrArg (Option.getD · "") (congrArg some (List.getElem_indexOf hlt))

/-! ## Helpers for the end-to-end registry claims -/

/-- Reading any slot of a constant list gives the constant. -/
theorem replicate_getD {α : Type} (k v : Nat) (a : α) :
    (List.replicate k a).getD v a = a := by
  rw [List.getD_eq_getElem?_getD, List.getElem?_replicate]
  split <;> rfl

/-- `getD` is injective on valid indices of a duplicate-free list. -/
theorem getD_inj (names : List String) (hnd : names.Nodup)
    (i j : Nat) (hi : i < names.length) (hj : j < names.length)
    (h : names.getD i "" = names.getD j "") : i = j := by
  have hi1 : names.getD i "" = names.get ⟨i, hi⟩ := by
    rw [List.getD_eq_getElem?_getD, List.getElem?_eq_getElem hi]
    rfl
  have hj1 : names.getD j "" = names.get ⟨j, hj⟩ := by
    rw [List.getD_eq_getElem?_getD, List.getElem?_eq_getElem hj]
    rfl
  rw [hi1, hj1] at h
  simpa using hnd.get_inj_iff.mp h

/-- In a chain, every node after the head has an incoming edge. -/
theorem chain_targets {α : Type} (R : α → α → Prop) :
    ∀ (l : List α) (a : α), List.Chain' R (a :: l) →
    ∀ x ∈ l, ∃ y, R y x := by
  intro l
  induction l with
  | nil =>
    intro a _ x hx
    cases hx
  | cons b t ih =>
    intro a hch x hx
    rcases List.mem_cons.mp hx with rfl | hx2
    · exact ⟨a, (List.chain'_cons.mp hch).1⟩
    · exact ih b (List.chain'_cons.mp hch).2 x hx2

/-- The last element of a nonempty mapped list. -/
theorem getLast_cons_map {α β : Type} (f : α → β) (a : α) (l : List α) :
    (f a :: l.map f).getLast (List.cons_ne_nil _ _) =
      f ((a :: l).getLast (List.cons_ne_nil a l)) := by
  have h1 : (f a :: l.map f).getLast? =
      some (f ((a :: l).getLast (List.cons_ne_nil a l))) := by
    rw [show (f a :: l.map f) = (a :: l).map f from rfl, List.getLast?_map,
      List.getLast?_eq_getLast (a :: l) (List.cons_ne_nil a l)]
    rfl
  have h2 : (f a :: l.map f).getLast? =
      some ((f a :: l.map f).getLast (List.cons_ne_nil _ _)) :=
    List.getLast?_eq_getLast _ _
  rw [h2] at h1
  exact Option.some.inj h1

/-- `dropLast` commutes with `map`. -/
theorem dropLast_map_comm {α β : Type} (f : α → β) :
    ∀ l : List α, (l.map f).dropLast = l.dropLast.map f := by
  intro l
  induction l with
  | nil => rfl
  | cons a t ih =>
    cases t with
    | nil => rfl
    | cons b t2 =>
      simp only [List.map_cons, List.dropLast_cons₂] at ih ⊢
      rw [ih]

/-- An all-empty-deps iteration leaves the adjacency untouched. -/
theorem buildAdj_nodeps (names : List String) :
    ∀ (dl : List (String × List String)) (adj adj2 : List (List Nat)),
    (∀ p ∈ dl, p.2 = []) → buildAdj names dl adj = .ok adj2 →
    adj2 = adj := by
  intro dl
  induction dl with
  | nil =>
    intro adj adj2 _ hok
    rw [buildAdj] at hok
    exact (Except.ok.inj hok).symm
  | cons pr dl ih =>
    intro adj adj2 hnd hok
    obtain ⟨nm, ds⟩ := pr
    have hds : ds = [] := hnd (nm, ds) (List.mem_cons_self _ _)
    subst hds
    rw [buildAdj] at hok
    by_cases hnm : nm ∈ names
    · rw [if_pos hnm] at hok
      exact ih adj adj2 (fun p hp => hnd p (List.mem_cons_of_mem _ hp)) hok
    · rw [if_neg hnm] at hok
      cases hok

/-- A fold over all-empty rows is the identity. -/
theorem foldl_rows_nil {α : Type} (f : α → Nat → α) :
    ∀ (rows : List (List Nat)) (init : α), (∀ r ∈ rows, r = []) →
    rows.foldl (fun acc l => l.foldl f acc) init = init := by
  intro rows
  induction rows with
  | nil =>
    intro init _
    rfl
  | cons r rs ih =>
    intro init hr
    rw [List.foldl_cons, hr r (List.mem_cons_self _ _)]
    exact ih init (fun r2 h => hr r2 (List.mem_cons_of_mem _ h))

/-- On the edgeless graph every indegree is zero. -/
theorem computeIndeg_edgeless (n : Nat) :
    computeIndeg n (List.replicate n []) = List.replicate n 0 := by
  unfold computeIndeg
  exact foldl_rows_nil _ (List.replicate n []) (List.replicate n 0)
    (fun r hr => List.eq_of_mem_replicate hr)

/-- With no edges left to relax, Kahn's loop drains the queue in order. -/
theorem kahnLoop_drain (n : Nat) :
    ∀ (q : List Nat) (fuel : Nat), q.length < fuel →
    ∀ (indeg order : List Nat),
    kahnLoop fuel indeg q (List.replicate n []) order = order ++ q := by
  intro q
  induction q with
  | nil =>
    intro fuel hf indeg order
    cases fuel with
    | zero => exact absurd hf (Nat.not_lt_zero _)
    | succ f =>
      rw [kahnLoop]
      simp
  | cons u rest ih =>
    intro fuel hf indeg order
    cases fuel with
    | zero => exact absurd hf (Nat.not_lt_zero _)
    | succ f =>
      have hf2 : rest.length < f := by
        rw [List.length_cons] at hf
        omega
      rw [kahnLoop]
      rw [replicate_getD]
      dsimp only [List.foldl]
      rw [ih f hf2 indeg (order ++ [u])]
      simp

/-- On the edgeless graph Kahn's phase emits the nodes in index order. -/
theorem kahnOrder_edgeless (n : Nat) :
    kahnOrder n (List.replicate n []) = List.range n := by
  show kahnLoop (n + 1) (computeIndeg n (List.replicate n []))
      ((List.range n).filter fun i =>
        (computeIndeg n (List.replicate n [])).getD i 0 = 0)
      (List.replicate n []) [] = List.range n
  rw [computeIndeg_edgeless]
  have hq : ((List.range n).filter fun i =>
      (List.replicate n (0 : Nat)).getD i 0 = 0) = List.range n := by
    rw [List.filter_eq_self]
    intro a _
    simp [replicate_getD]
  rw [hq, kahnLoop_drain n (List.range n) (n + 1)
    (by rw [List.length_range]; omega) (List.replicate n 0) []]
  rw [List.nil_append]

/-- Reading every index of a list back off gives the list. -/
theorem range_map_getD (l : List String) :
    (List.range l.length).map (fun i => l.getD i "") = l := by
  apply List.ext_getElem
  · simp
  · intro i h1 h2
    rw [List.getElem_map, List.getElem_range, List.getD_eq_getElem?_getD,
      List.getElem?_eq_getElem h2]
    rfl

/-! ## The end-to-end registry claims -/

/-- C1: for every registry accepted by `build_topo_sorted` (under any
`HashMap` enumeration orders `names` and `depsIter` of the registered
modules and of the deps map) and every dependency `d` declared by a module
`m`, both names appear in the emitted module order and `d` appears strictly
before `m`. -/
theorem c1_topo_soundness (b : RegistryBuilderM) (names : List String)
    (depsIter : List (String × List String)) (reg : ModuleRegistryM)
    (hndc : b.core.Nodup) (hnames : names.Perm b.core)
    (hdeps : depsIter.Perm b.deps)
    (hok : buildTopoSorted b names depsIter = .ok reg)
    (m : String) (ds : List String) (hmem : (m, ds) ∈ b.deps)
    (d : String) (hd : d ∈ ds) :
    d ∈ reg.modules.map (fun e => e.name) ∧
    m ∈ reg.modules.map (fun e => e.name) ∧
    (reg.modules.map fun e => e.name).indexOf d <
      (reg.modules.map fun e => e.name).indexOf m := by
  have hndn : names.Nodup := hnames.nodup_iff.mpr hndc
  have hmemI : (m, ds) ∈ depsIter := hdeps.mem_iff.mpr hmem
  unfold buildTopoSorted at hok
  cases hval : validateCaps b with
  | some e =>
    rw [hval] at hok
    cases hok
  | none =>
    rw [hval] at hok
    dsimp only at hok
    cases hadj : buildAdj names depsIter (List.replicate names.length [])
      with
    | error e =>
      rw [hadj] at hok
      cases hok
    | ok adj =>
      rw [hadj] at hok
      dsimp only at hok
      cases hdet : detectCycleWithPath names.length adj with
      | some c =>
        rw [hdet] at hok
        cases hok
      | none =>
        rw [hdet] at hok
        dsimp only at hok
        cases hmk : mkEntries b names (kahnOrder names.length adj) with
        | error e =>
          rw [hmk] at hok
          cases hok
        | ok entries =>
          rw [hmk] at hok
          cases hok
          obtain ⟨hknown, hlen, hchar⟩ := buildAdj_ok_inv names depsIter
            (List.replicate names.length []) adj hadj
            (List.length_replicate _ _)
          have hchar2 : ∀ v x, x ∈ adj.getD v [] ↔
              ∃ p ∈ depsIter, ∃ d2 ∈ p.2, x = names.indexOf p.1 ∧
                v = names.indexOf d2 := by
            intro v x
            rw [hchar v x, replicate_getD]
            simp
          have hm_names : m ∈ names := (hknown (m, ds) hmemI).1
          have hd_names : d ∈ names := (hknown (m, ds) hmemI).2 d hd
          have hwf : AdjWF names.length adj := by
            intro u w hw
            obtain ⟨p, hp, d2, hd2, hxeq, hveq⟩ := (hchar2 u w).mp hw
            rw [hxeq]
            exact List.indexOf_lt_length.mpr (hknown p hp).1
          have hedge : EdgeTo adj (names.indexOf d) (names.indexOf m) :=
            (hchar2 (names.indexOf d) (names.indexOf m)).mpr
              ⟨(m, ds), hmemI, d, hd, rfl, rfl⟩
          obtain ⟨hknd, hkbound, hksound, -⟩ :=
            kahnOrder_spec names.length adj hwf hlen
          have hmk_in : names.indexOf m ∈ kahnOrder names.length adj :=
            kahnOrder_complete names.length adj hwf hlen hdet _
              (List.indexOf_lt_length.mpr hm_names)
          obtain ⟨hdk_in, hlt⟩ := hksound _ hmk_in _
            (List.indexOf_lt_length.mpr hd_names) hedge
          have hnames_eq : entries.map (fun e => e.name) =
              (kahnOrder names.length adj).map fun i => names.getD i "" :=
            mkEntries_names b names _ entries hmk
          have hdn : names.getD (names.indexOf d) "" = d :=
            getD_indexOf names d hd_names
          have hmn : names.getD (names.indexOf m) "" = m :=
            getD_indexOf names m hm_names
          show d ∈ entries.map (fun e => e.name) ∧
            m ∈ entries.map (fun e => e.name) ∧
            (entries.map fun e => e.name).indexOf d <
              (entries.map fun e => e.name).indexOf m
          refine ⟨?_, ?_, ?_⟩
          · rw [hnames_eq]
            exact List.mem_map.mpr ⟨names.indexOf d, hdk_in, hdn⟩
          · rw [hnames_eq]
            exact List.mem_map.mpr ⟨names.indexOf m, hmk_in, hmn⟩
          · rw [hnames_eq, ← hdn, ← hmn,
              indexOf_map_getD names hndn _ hkbound _ hdk_in,
              indexOf_map_getD names hndn _ hkbound _ hmk_in]
            exact hlt

/-- Witness for `c1_topo_soundness`: module `b` declares `a`; in the
emitted order `a` precedes `b`. -/
theorem c1_topo_soundness_witness :
    "a" ∈ regC1.modules.map (fun e => e.name) ∧
    "b" ∈ regC1.modules.map (fun e => e.name) ∧
    (regC1.modules.map fun e => e.name).indexOf "a" <
      (regC1.modules.map fun e => e.name).indexOf "b" :=
  c1_topo_soundness bC1 ["a", "b"] bC1.deps regC1 (by decide)
    (List.Perm.refl _) (List.Perm.refl _) rfl "b" ["a"] (by decide) "a"
    (by decide)

/-- C2 counterexample: the builder registers the mutual cycle `a ↔ b` and
then registers `a` a second time; the dependency graph has a cycle, yet
`build_topo_sorted` reports `InvalidRegistryConfiguration` (the duplicate
registration), and never `CycleDetected`. -/
theorem c2_validation_preempts_cycle :
    HasDepCycle bC2.deps ∧
    buildTopoSorted bC2 ["a", "b"] bC2.deps =
      .error (.InvalidRegistryConfiguration
        ["Module a is already registered"]) ∧
    ∀ p, buildTopoSorted bC2 ["a", "b"] bC2.deps ≠
      .error (.CycleDetected p) := by
  have hrun : buildTopoSorted bC2 ["a", "b"] bC2.deps =
      .error (.InvalidRegistryConfiguration
        ["Module a is already registered"]) := rfl
  refine ⟨⟨"a", ["b"], ?_, ?_⟩, hrun, ?_⟩
  · exact List.chain'_cons.mpr
      ⟨⟨("b", ["a"]), by decide, rfl, by decide⟩, List.chain'_singleton _⟩
  · exact ⟨("a", ["b"]), by decide, rfl, by decide⟩
  · intro p hp
    rw [hrun] at hp
    exact RegistryError.noConfusion (Except.error.inj hp)

/-- C2 as amended: for a builder that passes validation (no accumulated
errors, all capability references known) whose declared dependency graph
has a cycle, `build_topo_sorted` returns `CycleDetected` with a path of at
least two entries that closes on its starting name, repeats no name before
the closing repeat, and steps along declared dependency edges — so the
listed names form one cycle and nothing else appears. -/
theorem c2_cycle_detected (b : RegistryBuilderM) (names : List String)
    (depsIter : List (String × List String))
    (hndc : b.core.Nodup) (hnames : names.Perm b.core)
    (hdeps : depsIter.Perm b.deps)
    (herr : b.errors = [])
    (hrest : ∀ x ∈ b.rest, x ∈ b.core)
    (hrh : ∀ y, b.restHost = some y → y ∈ b.core)
    (hdb : ∀ x ∈ b.db, x ∈ b.core)
    (hst : ∀ x ∈ b.stateful, x ∈ b.core)
    (hgh : ∀ y, b.grpcHub = some y → y ∈ b.core)
    (hgs : ∀ x ∈ b.grpcServices, x ∈ b.core)
    (hdk : ∀ p ∈ b.deps, p.1 ∈ b.core ∧ ∀ d ∈ p.2, d ∈ b.core)
    (hcyc : HasDepCycle b.deps) :
    ∃ path, buildTopoSorted b names depsIter =
        .error (.CycleDetected path) ∧
      2 ≤ path.length ∧ path.head? = path.getLast? ∧
      path.dropLast.Nodup ∧ List.Chain' (DepEdge b.deps) path := by
  have hndn : names.Nodup := hnames.nodup_iff.mpr hndc
  have hval : validateCaps b = none :=
    validateCaps_none b herr hrest hrh hdb hst hgh hgs
  have hkI : ∀ p ∈ depsIter, p.1 ∈ names ∧ ∀ d2 ∈ p.2, d2 ∈ names := by
    intro p hp
    obtain ⟨h1, h2⟩ := hdk p (hdeps.mem_iff.mp hp)
    exact ⟨hnames.mem_iff.mpr h1, fun d2 hd2 =>
      hnames.mem_iff.mpr (h2 d2 hd2)⟩
  obtain ⟨adj, hadj⟩ := buildAdj_ok_of_known names depsIter
    (List.replicate names.length []) hkI
  obtain ⟨hknown, hlen, hchar⟩ := buildAdj_ok_inv names depsIter
    (List.replicate names.length []) adj hadj (List.length_replicate _ _)
  have hchar2 : ∀ v x, x ∈ adj.getD v [] ↔
      ∃ p ∈ depsIter, ∃ d2 ∈ p.2, x = names.indexOf p.1 ∧
        v = names.indexOf d2 := by
    intro v x
    rw [hchar v x, replicate_getD]
    simp
  have hwf : AdjWF names.length adj := by
    intro u w hw
    obtain ⟨p, hp, d2, hd2, hxeq, hveq⟩ := (hchar2 u w).mp hw
    rw [hxeq]
    exact List.indexOf_lt_length.mpr (hknown p hp).1
  have hedgeN : ∀ x y : String, DepEdge b.deps x y →
      EdgeTo adj (names.indexOf x) (names.indexOf y) := by
    rintro x y ⟨p, hp, hp1, hx2⟩
    exact (hchar2 _ _).mpr
      ⟨p, hdeps.mem_iff.mpr hp, x, hx2, by rw [hp1], rfl⟩
  have htgt_core : ∀ x y : String, DepEdge b.deps x y → y ∈ b.core := by
    rintro x y ⟨p, hp, hp1, -⟩
    rw [← hp1]
    exact (hdk p hp).1
  obtain ⟨a, l, hchain, hclose⟩ := hcyc
  have hnodesN : ∀ x ∈ a :: l, x ∈ names := by
    intro x hx
    rcases List.mem_cons.mp hx with rfl | hx2
    · exact hnames.mem_iff.mpr (htgt_core _ _ hclose)
    · obtain ⟨y, hy⟩ := chain_targets (DepEdge b.deps) l a hchain x hx2
      exact hnames.mem_iff.mpr (htgt_core y x hy)
  have hIdx : HasIdxCycle names.length adj := by
    refine ⟨names.indexOf a, l.map (fun s => names.indexOf s), ?_, ?_, ?_⟩
    · intro x hx
      rcases List.mem_cons.mp hx with rfl | hx2
      · exact List.indexOf_lt_length.mpr
          (hnodesN a (List.mem_cons_self a l))
      · obtain ⟨s, hs, rfl⟩ := List.mem_map.mp hx2
        exact List.indexOf_lt_length.mpr
          (hnodesN s (List.mem_cons_of_mem a hs))
    · rw [show ((names.indexOf a :: l.map fun s => names.indexOf s)) =
        (a :: l).map fun s => names.indexOf s from rfl, List.chain'_map]
      exact List.Chain'.imp (fun x y hxy => hedgeN x y hxy) hchain
    · rw [getLast_cons_map (fun s => names.indexOf s) a l]
      exact hedgeN _ _ hclose
  obtain ⟨c, hdet, hlen2, hheads, hnd2, hchainc, hbound⟩ :=
    detect_finds_cycle names.length adj hwf hIdx
  refine ⟨c.map (fun i => names.getD i ""), ?_, ?_, ?_, ?_, ?_⟩
  · unfold buildTopoSorted
    rw [hval]
    dsimp only
    rw [hadj]
    dsimp only
    rw [hdet]
  · rw [List.length_map]
    exact hlen2
  · rw [List.head?_map, List.getLast?_map, hheads]
  · rw [dropLast_map_comm]
    refine List.Nodup.map_on ?_ hnd2
    intro x hx y hy hxy
    exact getD_inj names hndn x y
      (hbound x (List.dropLast_sublist c |>.subset hx))
      (hbound y (List.dropLast_sublist c |>.subset hy)) hxy
  · rw [List.chain'_map]
    refine List.Chain'.imp ?_ hchainc
    intro u w he
    obtain ⟨p, hp, d2, hd2, hxeq, hveq⟩ := (hchar2 u w).mp he
    have hpB : p ∈ b.deps := hdeps.mem_iff.mp hp
    have hp1N : p.1 ∈ names := (hkI p hp).1
    have hd2N : d2 ∈ names := (hkI p hp).2 d2 hd2
    rw [hveq, hxeq, getD_indexOf names d2 hd2N,
      getD_indexOf names p.1 hp1N]
    exact ⟨p, hpB, rfl, hd2⟩

/-- Witness for `c2_cycle_detected` at the clean mutual cycle `a ↔ b`. -/
theorem c2_cycle_detected_witness :
    ∃ path, buildTopoSorted bC2w ["a", "b"] bC2w.deps =
        .error (.CycleDetected path) ∧
      2 ≤ path.length ∧ path.head? = path.getLast? ∧
      path.dropLast.Nodup ∧ List.Chain' (DepEdge bC2w.deps) path :=
  c2_cycle_detected bC2w ["a", "b"] bC2w.deps (by decide)
    (List.Perm.refl _) (List.Perm.refl _) rfl (by decide)
    (fun _ hy => Option.noConfusion hy) (by decide) (by decide)
    (fun _ hy => Option.noConfusion hy) (by decide) (by decide)
    ⟨"a", ["b"], List.chain'_cons.mpr
      ⟨⟨("b", ["a"]), by decide, rfl, by decide⟩,
        List.chain'_singleton _⟩,
      ⟨("a", ["b"]), by decide, rfl, by decide⟩⟩

/-- C3 counterexample: two dependency-free modules are registered as `x`
then `y` (insertion order `["x", "y"]`), but under the `core.keys()`
enumeration `["y", "x"]` the emitted order is `["y", "x"]` — ties follow
the hash-map enumeration order, not insertion order. -/
theorem c3_tie_not_insertion_order :
    bC3.core = ["x", "y"] ∧
    buildTopoSorted bC3 ["y", "x"] bC3.deps = .ok regC3 ∧
    regC3.modules.map (fun e => e.name) = ["y", "x"] ∧
    (["y", "x"] : List String) ≠ ["x", "y"] :=
  ⟨rfl, rfl, rfl, by decide⟩

/-- C3 as amended: the emitted order is a deterministic function of the
`core.keys()` enumeration order, not of insertion order — on a registry
with no declared dependencies (every pair a topological tie) the emitted
module order is exactly the enumeration order `names`, whatever permutation
the `HashMap` yields. -/
theorem c3_order_is_enumeration (b : RegistryBuilderM)
    (names : List String) (depsIter : List (String × List String))
    (reg : ModuleRegistryM)
    (hnodeps : ∀ p ∈ depsIter, p.2 = [])
    (hok : buildTopoSorted b names depsIter = .ok reg) :
    reg.modules.map (fun e => e.name) = names := by
  unfold buildTopoSorted at hok
  cases hval : validateCaps b with
  | some e =>
    rw [hval] at hok
    cases hok
  | none =>
    rw [hval] at hok
    dsimp only at hok
    cases hadj : buildAdj names depsIter (List.replicate names.length [])
      with
    | error e =>
      rw [hadj] at hok
      cases hok
    | ok adj =>
      rw [hadj] at hok
      dsimp only at hok
      have hadj_eq : adj = List.replicate names.length [] :=
        buildAdj_nodeps names depsIter (List.replicate names.length []) adj
          hnodeps hadj
      subst hadj_eq
      cases hdet : detectCycleWithPath names.length
          (List.replicate names.length []) with
      | some c =>
        rw [hdet] at hok
        cases hok
      | none =>
        rw [hdet] at hok
        dsimp only at hok
        rw [kahnOrder_edgeless names.length] at hok
        cases hmk : mkEntries b names (List.range names.length) with
        | error e =>
          rw [hmk] at hok
          cases hok
        | ok entries =>
          rw [hmk] at hok
          cases hok
          show entries.map (fun e => e.name) = names
          rw [mkEntries_names b names _ entries hmk, range_map_getD]

/-- Witness for `c3_order_is_enumeration`: the dependency-free registry
`bC3` under the enumeration `["y", "x"]` emits exactly `["y", "x"]`. -/
theorem c3_order_is_enumeration_witness :
    regC3.modules.map (fun e => e.name) = ["y", "x"] :=
  c3_order_is_enumeration bC3 ["y", "x"] bC3.deps regC3 (by decide) rfl

end Hyperspot
